import Mathlib

/-!
# Verification of the hipSYCL `LoopSplitterInlining` pass

A shallow embedding of `src/compiler/LoopSplitterInlining.cpp`: the work-item
loop splitter inlining pass.  Functions are identified by numeric names
(LLVM functions in a module are uniquely named, so name equality coincides
with function identity).  A function body is a list of basic blocks; each
basic block is a list of instructions; the only instructions the pass
inspects are call instructions with a statically resolved callee (`call
(some f)`), unresolved/indirect calls (`call none`), and all other
instructions (`other tag`).

The C++ fixed-point loops (`do { ... } while (LastChanged)`) are embedded
with an explicit fuel parameter; a run that exhausts its fuel returns
`none`.  All theorems are stated about terminating runs (`= some ...`),
which for the pass's documented precondition (non-recursive call graphs)
are the only runs that occur.

External collaborators that live outside this repository's sources
(`IRUtils.hpp`, `SplitterAnnotationAnalysis.hpp`) are modelled from the
spec; each such definition carries a doc comment saying so.
-/

namespace LoopSplitter

/-- Function names; numeric identifiers standing in for LLVM symbol names. -/
abbrev FName := Nat

/-- Modelled from the spec: the "well-known canonical barrier-intrinsic name
constant used for identity comparison" (`hipsycl::compiler::BarrierIntrinsicName`,
declared in a header outside `src/`).  Its concrete value is irrelevant; it is
a fixed distinguished name. -/
def BarrierIntrinsicName : FName := 0

/-- An instruction: a call with a statically resolved callee, an
indirect/unresolved call (`CallBase` with null `getCalledFunction()`),
or any non-call instruction (tagged so that distinct instruction
sequences are distinguishable). -/
inductive Instr where
  | call (callee : Option FName)
  | other (tag : Nat)
deriving DecidableEq

/-- A basic block: an ordered list of instructions. -/
abbrev BasicBlock := List Instr

/-- An LLVM function: a name and a body.  An empty list of blocks models a
declaration (`isDeclaration()`). -/
structure Func where
  name : FName
  blocks : List BasicBlock
deriving DecidableEq

/-- A module: the list of functions of the compilation unit. -/
abbrev IRModule := List Func

/-- Modelled from the spec: the Annotation Oracle / `SplitterAnnotationInfo`
(its implementation lives in `SplitterAnnotationAnalysis.cpp`, outside
`src/`).  It answers `isKernelFunc` and `isSplitterFunc`.  Per the spec, the
canonical barrier intrinsic is itself classified as a splitter ("is-splitter
but already in its lowered/intrinsic form"), recorded here as a structural
invariant. -/
structure SplitterAnnotationInfo where
  kernels : Finset FName
  splitters : Finset FName
  barrier_is_splitter : BarrierIntrinsicName ∈ splitters

/-- `SplitterAnnotationInfo::isSplitterFunc`. -/
def SplitterAnnotationInfo.isSplitterFunc (SAA : SplitterAnnotationInfo) (f : FName) : Bool :=
  decide (f ∈ SAA.splitters)

/-- `SplitterAnnotationInfo::isKernelFunc`. -/
def SplitterAnnotationInfo.isKernelFunc (SAA : SplitterAnnotationInfo) (f : FName) : Bool :=
  decide (f ∈ SAA.kernels)

/-- Resolve a function by name in the module (LLVM's function lookup; a
`Function *` is the module's unique function of that name). -/
def findFunc (M : IRModule) (n : FName) : Option Func :=
  M.find? (fun f => f.name == n)

/-- The statically resolved callee of an instruction, if any. -/
def instrTarget : Instr → Option FName
  | Instr.call (some t) => some t
  | _ => none

/-- Resolved call targets of a list of instructions, in program order. -/
def instrListTargets (l : List Instr) : List FName :=
  l.filterMap instrTarget

/-- Resolved call targets of a list of basic blocks, in program order. -/
def blockTargets (bs : List BasicBlock) : List FName :=
  instrListTargets bs.flatten

/-- Resolved call targets appearing in the body of the named function
(empty for declarations and unknown names). -/
def funcTargets (M : IRModule) (f : FName) : List FName :=
  match findFunc M f with
  | some fn => blockTargets fn.blocks
  | none => []

/-- Whether the named function has a definition, i.e. a nonempty body
(the negation of `isDeclaration()`). -/
def hasDef (M : IRModule) (f : FName) : Bool :=
  match findFunc M f with
  | some fn => !fn.blocks.isEmpty
  | none => false

/-- The instructions of the named function's body, flattened in order; what
gets spliced into the caller when the call is inlined. -/
def flatBody (M : IRModule) (f : FName) : List Instr :=
  match findFunc M f with
  | some fn => fn.blocks.flatten
  | none => []

/-- All resolved call targets appearing anywhere in the module. -/
def moduleTargets (M : IRModule) : List FName :=
  (M.map (fun fn => blockTargets fn.blocks)).flatten

/-- Replace the body of the named function(s) in the module; models the
in-place mutation of the transformed function visible to a later pass
invocation. -/
def updateFunc (M : IRModule) (n : FName) (bs : List BasicBlock) : IRModule :=
  M.map (fun fn => if fn.name = n then { fn with blocks := bs } else fn)

/-!
## The transitive splitter-caller finder

`fillTransitiveSplitterCallers` (LoopSplitterInlining.cpp, lines 126-170):
depth-first traversal over resolved call targets, with memoisation of the
positive results in the accumulated set.  The C++ recursion has no
termination guard (the documented non-recursion precondition); the embedding
uses fuel and returns `none` when the fuel runs out.
-/

/-- The loop body of the `ArrayRef<BasicBlock *>` overload of
`fillTransitiveSplitterCallers`: visit each resolved call target in turn with
the given per-target visitor, accumulating the set and or-ing the `Found`
flags. -/
def fillFold (visit : FName → Finset FName → Option (Bool × Finset FName)) :
    List FName → Finset FName → Option (Bool × Finset FName)
  | [], S => some (false, S)
  | t :: ts, S =>
    match visit t S with
    | none => none
    | some (f1, S1) =>
      match fillFold visit ts S1 with
      | none => none
      | some (f2, S2) => some (f1 || f2, S2)

/-- `fillTransitiveSplitterCallers(Function &F, ...)`: if `F` is a splitter,
record it and report found; if it is already memoised, report found;
otherwise explore the resolved call targets of its body and record `F`
itself whenever a splitter is transitively reachable.  (The C++ also emits a
non-fatal diagnostic for non-intrinsic declarations, which has no semantic
effect and is not modelled.) -/
def fillTransitiveSplitterCallers (M : IRModule) (SAA : SplitterAnnotationInfo) :
    Nat → FName → Finset FName → Option (Bool × Finset FName)
  | 0, _, _ => none
  | fuel + 1, F, S =>
    if SAA.isSplitterFunc F then some (true, insert F S)
    else if F ∈ S then some (true, S)
    else
      match fillFold (fillTransitiveSplitterCallers M SAA fuel) (funcTargets M F) S with
      | none => none
      | some (true, S1) => some (true, insert F S1)
      | some (false, S1) => some (false, S1)

/-- The `ArrayRef<BasicBlock *>` / `Loop` overloads of
`fillTransitiveSplitterCallers`: explore the resolved call targets of the
given blocks. -/
def fillTransitiveSplitterCallersBlocks (M : IRModule) (SAA : SplitterAnnotationInfo)
    (fuel : Nat) (bs : List BasicBlock) (S : Finset FName) : Option (Bool × Finset FName) :=
  fillFold (fillTransitiveSplitterCallers M SAA fuel) (blockTargets bs) S

/-!
## The call-site inliner

`inlineCallsInBasicBlock` (lines 44-76): scan the block in order; on the
first applicable call either inline it (`utils::checkedInlineFunction`,
which succeeds exactly when the callee has a definition and splices the
callee's body in place of the call; modelled from the spec, `IRUtils` being
outside `src/`) or replace a non-canonical barrier call by a call to the
canonical barrier intrinsic (`utils::createBarrier` followed by
`eraseFromParent`), then restart the scan; a failed inlining attempt does
not stop the scan.  `inlineCallsStep` is a single scan; the `do/while`
fixed-point loops are fuelled iterations of it.
-/

/-- One scan of a basic block's instruction list: perform the first
applicable action (inline a splitter-caller call, or canonicalise a barrier
call) and return the rewritten list, or `none` when no action applies (the
scan's fixed point). -/
def inlineCallsStep (M : IRModule) (SAA : SplitterAnnotationInfo)
    (SplitterCallers : Finset FName) : List Instr → Option (List Instr)
  | [] => none
  | i :: rest =>
    match i with
    | Instr.call (some g) =>
      if g ∈ SplitterCallers ∧ SAA.isSplitterFunc g = false then
        if hasDef M g then some (flatBody M g ++ rest)
        else (inlineCallsStep M SAA SplitterCallers rest).map (fun r => i :: r)
      else if SAA.isSplitterFunc g = true ∧ g ≠ BarrierIntrinsicName then
        some (Instr.call (some BarrierIntrinsicName) :: rest)
      else (inlineCallsStep M SAA SplitterCallers rest).map (fun r => i :: r)
    | _ => (inlineCallsStep M SAA SplitterCallers rest).map (fun r => i :: r)

/-- `inlineCallsInBasicBlock`: iterate `inlineCallsStep` on one block to its
fixed point, reporting whether anything changed; `none` on fuel exhaustion. -/
def inlineCallsInBasicBlock (M : IRModule) (SAA : SplitterAnnotationInfo)
    (SplitterCallers : Finset FName) : Nat → BasicBlock → Bool → Option (BasicBlock × Bool)
  | 0, _, _ => none
  | fuel + 1, BB, changed =>
    match inlineCallsStep M SAA SplitterCallers BB with
    | none => some (BB, changed)
    | some BB' => inlineCallsInBasicBlock M SAA SplitterCallers fuel BB' true

/-- One step of the scope-level fixed point (`inlineCallsInLoop` /
`inlineCallsInFunction`): find the first scope block (selected by index)
where a scan action applies, apply it, and restart.  Returns the updated
block list or `none` when every scope block is at its fixed point. -/
def inlineCallsStepBlocks (M : IRModule) (SAA : SplitterAnnotationInfo)
    (SplitterCallers : Finset FName) : List Nat → List BasicBlock → Option (List BasicBlock)
  | [], _ => none
  | i :: is, blocks =>
    match blocks.get? i with
    | some b =>
      match inlineCallsStep M SAA SplitterCallers b with
      | some b' => some (blocks.set i b')
      | none => inlineCallsStepBlocks M SAA SplitterCallers is blocks
    | none => inlineCallsStepBlocks M SAA SplitterCallers is blocks

/-- The scope-level fixed-point loop shared by `inlineCallsInLoop` and
`inlineCallsInFunction`: iterate `inlineCallsStepBlocks` until no scope
block changes, accumulating the `Changed` flag.  (The C++ runs each block to
its own fixed point before restarting the outer loop; performing one action
per outer iteration reaches the same fixed point with the same `Changed`
outcome.  `utils::updateDtAndLi`, which refreshes the loop handle after a
structural change, is modelled from the spec as returning the same stable
set of scope block indices: inlining in this embedding splices instructions
within an existing block, so block identities are unchanged.) -/
def inlineCallsInScope (M : IRModule) (SAA : SplitterAnnotationInfo)
    (SplitterCallers : Finset FName) (idxs : List Nat) :
    Nat → List BasicBlock → Bool → Option (List BasicBlock × Bool)
  | 0, _, _ => none
  | fuel + 1, blocks, changed =>
    match inlineCallsStepBlocks M SAA SplitterCallers idxs blocks with
    | none => some (blocks, changed)
    | some blocks' => inlineCallsInScope M SAA SplitterCallers idxs fuel blocks' true

/-!
## The pass driver
-/

/-- Modelled from the spec: the Loop Classifier collaborator
(`utils::getSingleWorkItemLoop` / `utils::isWorkItemLoop`, in `IRUtils`
outside `src/`).  A candidate loop is a set of block indices into the
function's block list together with the classifier's verdict on whether it
is the canonical work-item loop. -/
structure WorkItemLoop where
  blockIdxs : List Nat
  isWorkItem : Bool
deriving DecidableEq

/-- The blocks of a loop (`Loop::getBlocks`), selected by index from the
function's block list. -/
def selectBlocks (blocks : List BasicBlock) (idxs : List Nat) : List BasicBlock :=
  idxs.filterMap (fun i => blocks.get? i)

/-- `inlineSplitter(Loop *L, ...)` (lines 172-185): bail out if the loop is
not a work-item loop; otherwise search the loop's blocks for transitive
splitter callers and, if any, inline within the loop's blocks. -/
def inlineSplitterLoop (M : IRModule) (SAA : SplitterAnnotationInfo) (fuel : Nat)
    (L : WorkItemLoop) (blocks : List BasicBlock) : Option (List BasicBlock × Bool) :=
  if L.isWorkItem = false then some (blocks, false)
  else
    match fillTransitiveSplitterCallersBlocks M SAA fuel (selectBlocks blocks L.blockIdxs) ∅ with
    | none => none
    | some (false, _) => some (blocks, false)
    | some (true, S) => inlineCallsInScope M SAA S L.blockIdxs fuel blocks false

/-- The whole-function fallback of `inlineSplitter(Function &F, ...)`
(lines 193-199): search the function for transitive splitter callers and,
if any, inline over all of its blocks. -/
def inlineSplitterFn (M : IRModule) (SAA : SplitterAnnotationInfo) (fuel : Nat)
    (F : Func) : Option (Func × Bool) :=
  match fillTransitiveSplitterCallers M SAA fuel F.name ∅ with
  | none => none
  | some (false, _) => some (F, false)
  | some (true, S) =>
    match inlineCallsInScope M SAA S (List.range F.blocks.length) fuel F.blocks false with
    | none => none
    | some (bs, ch) => some ({ F with blocks := bs }, ch)

/-- `inlineSplitter(Function &F, ...)` (lines 187-203): if the Loop
Classifier identifies a single work-item loop, transform at loop scope;
otherwise fall back to whole-function scope.  The classifier's answer
(`getSingleWorkItemLoop`) is an input, it being an external collaborator. -/
def inlineSplitter (M : IRModule) (SAA : SplitterAnnotationInfo) (fuel : Nat)
    (wiLoop : Option WorkItemLoop) (F : Func) : Option (Func × Bool) :=
  match wiLoop with
  | some L =>
    match inlineSplitterLoop M SAA fuel L F.blocks with
    | none => none
    | some (bs, ch) => some ({ F with blocks := bs }, ch)
  | none => inlineSplitterFn M SAA fuel F

/-- `LoopSplitterInliningPassLegacy::runOnFunction` (lines 213-222): skip
non-kernel functions, otherwise run `inlineSplitter`; the returned flag is
the "changed" report to the legacy pass manager. -/
def runOnFunction (M : IRModule) (SAA : SplitterAnnotationInfo) (fuel : Nat)
    (wiLoop : Option WorkItemLoop) (F : Func) : Option (Func × Bool) :=
  if SAA.isKernelFunc F.name = false then some (F, false)
  else inlineSplitter M SAA fuel wiLoop F

/-- The new-pass-manager report: all analyses preserved, or only the
splitter-annotation analysis preserved. -/
inductive PreservedAnalyses where
  | all
  | onlySplitterAnn
deriving DecidableEq

/-- `LoopSplitterInliningPass::run` (lines 225-245): if the
`SplitterAnnotationAnalysis` result is not cached for the module, do nothing
and preserve everything; skip non-kernels; otherwise run `inlineSplitter`
and report `all` on no change, else only the annotation analysis. -/
def passRun (M : IRModule) (cachedSAA : Option SplitterAnnotationInfo) (fuel : Nat)
    (wiLoop : Option WorkItemLoop) (F : Func) : Option (Func × PreservedAnalyses) :=
  match cachedSAA with
  | none => some (F, PreservedAnalyses.all)
  | some SAA =>
    if SAA.isKernelFunc F.name = false then some (F, PreservedAnalyses.all)
    else
      match inlineSplitter M SAA fuel wiLoop F with
      | none => none
      | some (F', false) => some (F', PreservedAnalyses.all)
      | some (F', true) => some (F', PreservedAnalyses.onlySplitterAnn)

/-!
## Specification-level predicates

`Reaches M SAA f`: function `f` is a splitter or transitively calls one
through statically resolved direct calls (the spec's "transitive splitter
caller" notion).

`VisitsFrom M SAA root f`: `f` is reachable from `root` along resolved
direct calls whose intermediate nodes are not splitters — exactly the nodes
the finder's depth-first traversal visits, since it stops exploring below a
function as soon as it is known to be a splitter.
-/

/-- `f` is annotated as a splitter or transitively calls one. -/
inductive Reaches (M : IRModule) (SAA : SplitterAnnotationInfo) : FName → Prop where
  | splitter (f : FName) : SAA.isSplitterFunc f = true → Reaches M SAA f
  | step (f g : FName) : g ∈ funcTargets M f → Reaches M SAA g → Reaches M SAA f

/-- `f` lies on a resolved-call path from `root` that passes through no
splitter (except possibly at `f` itself). -/
inductive VisitsFrom (M : IRModule) (SAA : SplitterAnnotationInfo) (root : FName) : FName → Prop where
  | base : VisitsFrom M SAA root root
  | step (f g : FName) : VisitsFrom M SAA root f → SAA.isSplitterFunc f = false →
      g ∈ funcTargets M f → VisitsFrom M SAA root g

/-- Every member of the set is a transitive splitter caller; non-splitter
members have a nonempty list of call targets (hence a definition). -/
def SoundSet (M : IRModule) (SAA : SplitterAnnotationInfo) (S : Finset FName) : Prop :=
  ∀ f ∈ S, Reaches M SAA f ∧ (SAA.isSplitterFunc f = false → funcTargets M f ≠ [])

/-- The set is closed under stepping from its explored (non-splitter)
members to their splitter-reaching call targets. -/
def ClosedSet (M : IRModule) (SAA : SplitterAnnotationInfo) (S : Finset FName) : Prop :=
  ∀ f ∈ S, SAA.isSplitterFunc f = false →
    ∀ g ∈ funcTargets M f, Reaches M SAA g → g ∈ S

/-- The contract of one finder call rooted at the functions `roots`, taking
the memo set from `S` to `S'` and reporting `fnd`. -/
structure FillOutcome (M : IRModule) (SAA : SplitterAnnotationInfo) (roots : List FName)
    (S S' : Finset FName) (fnd : Bool) : Prop where
  subset : S ⊆ S'
  sound : SoundSet M SAA S'
  closed : ClosedSet M SAA S'
  found_iff : fnd = true ↔ ∃ t ∈ roots, Reaches M SAA t
  complete_roots : ∀ t ∈ roots, Reaches M SAA t → t ∈ S'
  delta : ∀ f ∈ S', f ∈ S ∨ (Reaches M SAA f ∧ ∃ t ∈ roots, VisitsFrom M SAA t f)

/-!
## The scan fixed point

`NoAction M SAA S i` says neither of the two rewrites of
`inlineCallsInBasicBlock`'s scan applies to instruction `i`: a call to a
non-splitter member of `S` is only left in place when inlining would fail
(callee without a definition), and a call to a splitter is only left in
place when the callee already is the canonical barrier intrinsic.
-/

def NoAction (M : IRModule) (SAA : SplitterAnnotationInfo) (S : Finset FName) (i : Instr) : Prop :=
  ∀ g, i = Instr.call (some g) →
    ((g ∈ S ∧ SAA.isSplitterFunc g = false) → hasDef M g = false) ∧
    (SAA.isSplitterFunc g = true → g = BarrierIntrinsicName)

def Mw9 : IRModule :=
  [⟨1, [[Instr.call (some 2)], [Instr.call (some 2)]]⟩, ⟨2, [[Instr.call (some 0)]]⟩, ⟨0, []⟩]

def SAAw9 : SplitterAnnotationInfo := ⟨{1}, {0}, by decide⟩

def Fw9 : Func := ⟨1, [[Instr.call (some 2)], [Instr.call (some 2)]]⟩

def Fw9' : Func := ⟨1, [[Instr.call (some 0)], [Instr.call (some 2)]]⟩

def Mw3 : IRModule := [⟨1, [[Instr.call (some 2)]]⟩, ⟨2, [[Instr.call (some 0)]]⟩, ⟨0, []⟩]

def SAAw3 : SplitterAnnotationInfo := ⟨{1}, {0}, by decide⟩

def Sw3 : Finset FName := insert 1 (insert 2 {0})

def Mw1 : IRModule := [⟨1, [[Instr.call (some 0)]]⟩, ⟨0, []⟩]

def SAAw1 : SplitterAnnotationInfo := ⟨{1}, {0}, by decide⟩

def Sw1 : Finset FName := insert 1 {0}

def Mw7 : IRModule := [⟨1, [[Instr.call (some 2)]]⟩, ⟨2, [[Instr.other 3]]⟩]

def SAAw7 : SplitterAnnotationInfo := ⟨{1}, {0}, by decide⟩

def Fw7 : Func := ⟨1, [[Instr.call (some 2)]]⟩

def Mc5 : IRModule := [⟨1, [[Instr.call (some 2)]]⟩, ⟨2, [[Instr.call (some 3)]]⟩, ⟨3, []⟩]

def SAAc5 : SplitterAnnotationInfo := ⟨{1}, insert 0 {3}, by decide⟩

def Fc5 : Func := ⟨1, [[Instr.call (some 2)]]⟩

/-- Plain call-graph reachability from a root, one resolution step per
resolved call, with no special treatment of splitters: the claim's notion
of "reachable from that scope through statically resolved direct calls". -/
inductive CallReachable (M : IRModule) (root : FName) : FName → Prop where
  | base : CallReachable M root root
  | step (f g : FName) : CallReachable M root f → g ∈ funcTargets M f →
      CallReachable M root g

def Mc2 : IRModule := [⟨1, [[Instr.call (some 2)]]⟩, ⟨2, [[Instr.call (some 3)]]⟩, ⟨3, []⟩]

def SAAc2 : SplitterAnnotationInfo := ⟨{1}, insert 0 (insert 2 {3}), by decide⟩

def Sc2 : Finset FName := insert 1 (insert 2 ∅)

def ScopeInv (M : IRModule) (SAA : SplitterAnnotationInfo) (roots : List FName)
    (t : FName) : Prop :=
  t = BarrierIntrinsicName ∨
    (t ∈ moduleTargets M ∧ ∃ r ∈ roots, VisitsFrom M SAA r t)

def Mw8 : IRModule := [⟨1, [[Instr.call (some 2)]]⟩, ⟨2, [[Instr.call (some 3)]]⟩, ⟨3, []⟩]

def SAAw8 : SplitterAnnotationInfo := ⟨{1}, insert 0 {3}, by decide⟩

def Fw8 : Func := ⟨1, [[Instr.call (some 2)]]⟩

def Fw8' : Func := ⟨1, [[Instr.call (some 0)]]⟩

theorem VisitsFrom.trans {M : IRModule} {SAA : SplitterAnnotationInfo} {r m f : FName}
    (h1 : VisitsFrom M SAA r m) (h2 : VisitsFrom M SAA m f) : VisitsFrom M SAA r f := by
  induction h2 with
  | base => exact h1
  | step f g _ hsp hg ih => exact VisitsFrom.step f g ih hsp hg

theorem reaches_iff {M : IRModule} {SAA : SplitterAnnotationInfo} {f : FName} :
    Reaches M SAA f ↔
      SAA.isSplitterFunc f = true ∨ ∃ g ∈ funcTargets M f, Reaches M SAA g := by
  constructor
  · intro h
    cases h with
    | splitter _ hs => exact Or.inl hs
    | step _ g hg hr => exact Or.inr ⟨g, hg, hr⟩
  · rintro (hs | ⟨g, hg, hr⟩)
    · exact Reaches.splitter f hs
    · exact Reaches.step f g hg hr

theorem soundSet_empty (M : IRModule) (SAA : SplitterAnnotationInfo) :
    SoundSet M SAA ∅ := by
  intro f hf; simp at hf

theorem closedSet_empty (M : IRModule) (SAA : SplitterAnnotationInfo) :
    ClosedSet M SAA ∅ := by
  intro f hf; simp at hf

theorem fillFold_master {M : IRModule} {SAA : SplitterAnnotationInfo}
    {visit : FName → Finset FName → Option (Bool × Finset FName)}
    (hvisit : ∀ t S fnd S', visit t S = some (fnd, S') →
      SoundSet M SAA S → ClosedSet M SAA S → FillOutcome M SAA [t] S S' fnd) :
    ∀ (ts : List FName) (S : Finset FName) (fnd : Bool) (S' : Finset FName),
      fillFold visit ts S = some (fnd, S') →
      SoundSet M SAA S → ClosedSet M SAA S → FillOutcome M SAA ts S S' fnd := by
  intro ts
  induction ts with
  | nil =>
    intro S fnd S' h hS hC
    simp only [fillFold, Option.some.injEq, Prod.mk.injEq] at h
    obtain ⟨hfnd, hSS⟩ := h
    subst hfnd; subst hSS
    refine ⟨Finset.Subset.refl S, hS, hC, ?_, ?_, ?_⟩
    · simp
    · intro t ht; simp at ht
    · intro f hf; exact Or.inl hf
  | cons t ts ih =>
    intro S fnd S' h hS hC
    simp only [fillFold] at h
    split at h
    · exact absurd h (by simp)
    · rename_i f1 S1 h1
      split at h
      · exact absurd h (by simp)
      · rename_i f2 S2 h2
        simp only [Option.some.injEq, Prod.mk.injEq] at h
        obtain ⟨hfnd, hSS⟩ := h
        subst hfnd; subst hSS
        have O1 := hvisit t S f1 S1 h1 hS hC
        have O2 := ih S1 f2 S2 h2 O1.sound O1.closed
        refine ⟨Finset.Subset.trans O1.subset O2.subset, O2.sound, O2.closed, ?_, ?_, ?_⟩
        · constructor
          · intro hor
            rcases Bool.or_eq_true_iff.mp hor with hf1 | hf2
            · obtain ⟨t', ht', hr⟩ := O1.found_iff.mp hf1
              simp only [List.mem_singleton] at ht'
              exact ⟨t, List.mem_cons_self t ts, ht' ▸ hr⟩
            · obtain ⟨t', ht', hr⟩ := O2.found_iff.mp hf2
              exact ⟨t', List.mem_cons_of_mem t ht', hr⟩
          · rintro ⟨t', ht', hr⟩
            rcases List.mem_cons.mp ht' with h3 | h3
            · have : f1 = true := O1.found_iff.mpr ⟨t', by simp [h3], hr⟩
              simp [this]
            · have : f2 = true := O2.found_iff.mpr ⟨t', h3, hr⟩
              simp [this]
        · intro t' ht' hr
          rcases List.mem_cons.mp ht' with h3 | h3
          · exact O2.subset (O1.complete_roots t' (by simp [h3]) hr)
          · exact O2.complete_roots t' h3 hr
        · intro f hf
          rcases O2.delta f hf with hf1 | ⟨hr, t', ht', hv⟩
          · rcases O1.delta f hf1 with hf0 | ⟨hr, t', ht', hv⟩
            · exact Or.inl hf0
            · simp only [List.mem_singleton] at ht'
              exact Or.inr ⟨hr, t, List.mem_cons_self t ts, ht' ▸ hv⟩
          · exact Or.inr ⟨hr, t', List.mem_cons_of_mem t ht', hv⟩

theorem fill_master :
    ∀ (fuel : Nat) (M : IRModule) (SAA : SplitterAnnotationInfo) (F : FName)
      (S : Finset FName) (fnd : Bool) (S' : Finset FName),
      fillTransitiveSplitterCallers M SAA fuel F S = some (fnd, S') →
      SoundSet M SAA S → ClosedSet M SAA S → FillOutcome M SAA [F] S S' fnd := by
  intro fuel
  induction fuel with
  | zero => intro M SAA F S fnd S' h; simp [fillTransitiveSplitterCallers] at h
  | succ fuel ih =>
    intro M SAA F S fnd S' h hS hC
    rw [fillTransitiveSplitterCallers] at h
    by_cases hsp : SAA.isSplitterFunc F = true
    · simp only [hsp, if_true, Option.some.injEq, Prod.mk.injEq] at h
      obtain ⟨hfnd, hSS⟩ := h
      subst hfnd; subst hSS
      refine ⟨Finset.subset_insert F S, ?_, ?_, ?_, ?_, ?_⟩
      · intro f hf
        rcases Finset.mem_insert.mp hf with h | h
        · subst h; exact ⟨Reaches.splitter f hsp, fun hc => absurd hsp (by simp [hc])⟩
        · exact hS f h
      · intro f hf hfs g hg hr
        rcases Finset.mem_insert.mp hf with h | h
        · subst h; rw [hsp] at hfs; exact absurd hfs (by simp)
        · exact Finset.mem_insert_of_mem (hC f h hfs g hg hr)
      · simp only [true_iff]
        exact ⟨F, List.mem_singleton_self F, Reaches.splitter F hsp⟩
      · intro t ht _; simp at ht; subst ht; exact Finset.mem_insert_self _ _
      · intro f hf
        rcases Finset.mem_insert.mp hf with h | h
        · subst h
          exact Or.inr ⟨Reaches.splitter f hsp, f, List.mem_singleton_self f, VisitsFrom.base⟩
        · exact Or.inl h
    · rw [if_neg (by simpa using hsp)] at h
      rw [Bool.not_eq_true] at hsp
      by_cases hmem : F ∈ S
      · simp only [hmem, if_true, Option.some.injEq, Prod.mk.injEq] at h
        obtain ⟨hfnd, hSS⟩ := h
        subst hfnd; subst hSS
        refine ⟨Finset.Subset.refl S, hS, hC, ?_, ?_, ?_⟩
        · simp only [true_iff]
          exact ⟨F, List.mem_singleton_self F, (hS F hmem).1⟩
        · intro t ht _; simp at ht; subst ht; exact hmem
        · intro f hf; exact Or.inl hf
      · rw [if_neg hmem] at h
        cases hfold : fillFold (fillTransitiveSplitterCallers M SAA fuel) (funcTargets M F) S with
        | none => rw [hfold] at h; simp at h
        | some p =>
          obtain ⟨ffold, S1⟩ := p
          rw [hfold] at h
          have O := fillFold_master (fun t S fnd S' hfill => ih M SAA t S fnd S' hfill)
            (funcTargets M F) S ffold S1 hfold hS hC
          have hvlift : ∀ f, (∃ t ∈ funcTargets M F, VisitsFrom M SAA t f) →
              VisitsFrom M SAA F f := by
            rintro f ⟨t, ht, hv⟩
            exact VisitsFrom.trans (VisitsFrom.step F t VisitsFrom.base hsp ht) hv
          cases ffold with
          | true =>
            simp only [Option.some.injEq, Prod.mk.injEq] at h
            obtain ⟨hfnd, hSS⟩ := h
            subst hfnd; subst hSS
            have hreach : Reaches M SAA F := by
              obtain ⟨t, ht, hr⟩ := O.found_iff.mp rfl
              exact Reaches.step F t ht hr
            refine ⟨Finset.Subset.trans O.subset (Finset.subset_insert F S1), ?_, ?_, ?_, ?_, ?_⟩
            · intro f hf
              rcases Finset.mem_insert.mp hf with hh | hh
              · subst hh
                refine ⟨hreach, fun _ => ?_⟩
                obtain ⟨t, ht, _⟩ := O.found_iff.mp rfl
                exact List.ne_nil_of_mem ht
              · exact O.sound f hh
            · intro f hf hfs g hg hr
              rcases Finset.mem_insert.mp hf with hh | hh
              · subst hh
                exact Finset.mem_insert_of_mem (O.complete_roots g hg hr)
              · exact Finset.mem_insert_of_mem (O.closed f hh hfs g hg hr)
            · simp only [true_iff]
              exact ⟨F, List.mem_singleton_self F, hreach⟩
            · intro t ht _; simp at ht; subst ht; exact Finset.mem_insert_self _ _
            · intro f hf
              rcases Finset.mem_insert.mp hf with hh | hh
              · subst hh
                exact Or.inr ⟨hreach, f, List.mem_singleton_self f, VisitsFrom.base⟩
              · rcases O.delta f hh with h0 | ⟨hr, hex⟩
                · exact Or.inl h0
                · exact Or.inr ⟨hr, F, List.mem_singleton_self F, hvlift f hex⟩
          | false =>
            simp only [Option.some.injEq, Prod.mk.injEq] at h
            obtain ⟨hfnd, hSS⟩ := h
            subst hfnd; subst hSS
            have hnr : ¬ Reaches M SAA F := by
              intro hr
              rcases reaches_iff.mp hr with hh | ⟨g, hg, hgr⟩
              · rw [hsp] at hh; exact absurd hh (by simp)
              · have : (false : Bool) = true := O.found_iff.mpr ⟨g, hg, hgr⟩
                simp at this
            refine ⟨O.subset, O.sound, O.closed, ?_, ?_, ?_⟩
            · simp only [Bool.false_eq_true, false_iff]
              rintro ⟨t, ht, hr⟩
              simp at ht; subst ht; exact hnr hr
            · intro t ht hr; simp at ht; subst ht; exact absurd hr hnr
            · intro f hf
              rcases O.delta f hf with h0 | ⟨hr, hex⟩
              · exact Or.inl h0
              · exact Or.inr ⟨hr, F, List.mem_singleton_self F, hvlift f hex⟩

theorem visits_closed_mem {M : IRModule} {SAA : SplitterAnnotationInfo} {S' : Finset FName}
    {t f : FName} (hC : ClosedSet M SAA S') (ht : Reaches M SAA t → t ∈ S')
    (hv : VisitsFrom M SAA t f) : Reaches M SAA f → f ∈ S' := by
  induction hv with
  | base => exact ht
  | step f g hvf hsp hg ih =>
    intro hrg
    have hrf : Reaches M SAA f := Reaches.step f g hg hrg
    exact hC f (ih hrf) hsp g hg hrg

/-- Full characterisation of the function-scope finder started on an empty
set: the computed set is exactly the splitter-reachers visited by the
traversal (which stops below splitters), and the flag is exactly "the root
transitively reaches a splitter". -/
theorem fill_spec {fuel : Nat} {M : IRModule} {SAA : SplitterAnnotationInfo} {F : FName}
    {fnd : Bool} {S' : Finset FName}
    (h : fillTransitiveSplitterCallers M SAA fuel F ∅ = some (fnd, S')) :
    (∀ f, f ∈ S' ↔ (VisitsFrom M SAA F f ∧ Reaches M SAA f)) ∧
      (fnd = true ↔ Reaches M SAA F) := by
  have O := fill_master fuel M SAA F ∅ fnd S' h (soundSet_empty M SAA) (closedSet_empty M SAA)
  constructor
  · intro f
    constructor
    · intro hf
      rcases O.delta f hf with h0 | ⟨hr, t, ht, hv⟩
      · simp at h0
      · simp only [List.mem_singleton] at ht
        exact ⟨ht ▸ hv, hr⟩
    · rintro ⟨hv, hr⟩
      exact visits_closed_mem O.closed (O.complete_roots F (by simp)) hv hr
  · rw [O.found_iff]; simp

/-- The fold over a list of roots with the fuelled finder as visitor
satisfies the finder contract. -/
theorem fillFold_fill_outcome {fuel : Nat} {M : IRModule} {SAA : SplitterAnnotationInfo}
    {ts : List FName} {S : Finset FName} {fnd : Bool} {S' : Finset FName}
    (h : fillFold (fillTransitiveSplitterCallers M SAA fuel) ts S = some (fnd, S'))
    (hS : SoundSet M SAA S) (hC : ClosedSet M SAA S) : FillOutcome M SAA ts S S' fnd :=
  fillFold_master (fun t S fnd S' hf => fill_master fuel M SAA t S fnd S' hf) ts S fnd S' h hS hC

/-- Full characterisation of the blocks-scope finder started on an empty
set. -/
theorem fillBlocks_spec {fuel : Nat} {M : IRModule} {SAA : SplitterAnnotationInfo}
    {bs : List BasicBlock} {fnd : Bool} {S' : Finset FName}
    (h : fillTransitiveSplitterCallersBlocks M SAA fuel bs ∅ = some (fnd, S')) :
    (∀ f, f ∈ S' ↔ ((∃ t ∈ blockTargets bs, VisitsFrom M SAA t f) ∧ Reaches M SAA f)) ∧
      (fnd = true ↔ ∃ t ∈ blockTargets bs, Reaches M SAA t) := by
  have O := fillFold_fill_outcome h (soundSet_empty M SAA) (closedSet_empty M SAA)
  refine ⟨?_, O.found_iff⟩
  intro f
  constructor
  · intro hf
    rcases O.delta f hf with h0 | ⟨hr, t, ht, hv⟩
    · simp at h0
    · exact ⟨⟨t, ht, hv⟩, hr⟩
  · rintro ⟨⟨t, ht, hv⟩, hr⟩
    exact visits_closed_mem O.closed (O.complete_roots t ht) hv hr

/-!
## Elementary facts about call targets
-/

theorem funcTargets_hasDef {M : IRModule} {f : FName} (h : funcTargets M f ≠ []) :
    hasDef M f = true := by
  unfold funcTargets at h
  unfold hasDef
  revert h
  cases hff : findFunc M f with
  | none => intro h; exact absurd rfl h
  | some fn =>
    intro h
    show (!fn.blocks.isEmpty) = true
    cases hbl : fn.blocks with
    | nil =>
      have hbt : blockTargets fn.blocks = [] := by
        rw [hbl]; rfl
      exact absurd hbt h
    | cons b bs => rfl

theorem mem_moduleTargets_of_funcTargets {M : IRModule} {f t : FName}
    (h : t ∈ funcTargets M f) : t ∈ moduleTargets M := by
  unfold funcTargets at h
  revert h
  cases hff : findFunc M f with
  | none => intro h; simp at h
  | some fn =>
    intro h
    have hmem : fn ∈ M := List.mem_of_find?_eq_some hff
    unfold moduleTargets
    rw [List.mem_flatten]
    exact ⟨blockTargets fn.blocks, List.mem_map_of_mem _ hmem, h⟩

theorem funcTargets_of_findFunc {M : IRModule} {F : Func}
    (h : findFunc M F.name = some F) : funcTargets M F.name = blockTargets F.blocks := by
  unfold funcTargets; rw [h]

theorem instrTarget_eq_some {i : Instr} {g : FName} :
    instrTarget i = some g ↔ i = Instr.call (some g) := by
  cases i with
  | call c => cases c with
    | none => simp [instrTarget]
    | some t => simp [instrTarget]
  | other t => simp [instrTarget]

theorem mem_instrListTargets {l : List Instr} {g : FName} :
    g ∈ instrListTargets l ↔ Instr.call (some g) ∈ l := by
  simp only [instrListTargets, List.mem_filterMap]
  constructor
  · rintro ⟨i, hi, ht⟩
    rw [instrTarget_eq_some] at ht
    exact ht ▸ hi
  · intro hi
    exact ⟨Instr.call (some g), hi, rfl⟩

theorem instrListTargets_append (l1 l2 : List Instr) :
    instrListTargets (l1 ++ l2) = instrListTargets l1 ++ instrListTargets l2 := by
  simp [instrListTargets, List.filterMap_append]

theorem instrListTargets_flatBody (M : IRModule) (f : FName) :
    instrListTargets (flatBody M f) = funcTargets M f := by
  unfold flatBody funcTargets
  cases findFunc M f with
  | none => rfl
  | some fn => rfl

theorem noAction_skip {M : IRModule} {SAA : SplitterAnnotationInfo} {S : Finset FName}
    {i : Instr} (h : NoAction M SAA S i) (rest : List Instr) :
    inlineCallsStep M SAA S (i :: rest) =
      (inlineCallsStep M SAA S rest).map (fun r => i :: r) := by
  cases i with
  | other t => rfl
  | call c =>
    cases c with
    | none => rfl
    | some g =>
      obtain ⟨h1, h2⟩ := h g rfl
      simp only [inlineCallsStep]
      by_cases hc1 : g ∈ S ∧ SAA.isSplitterFunc g = false
      · rw [if_pos hc1, h1 hc1]
        simp
      · rw [if_neg hc1]
        by_cases hc2 : SAA.isSplitterFunc g = true ∧ g ≠ BarrierIntrinsicName
        · exact absurd (h2 hc2.1) hc2.2
        · rw [if_neg hc2]

theorem step_cons_none_inv {M : IRModule} {SAA : SplitterAnnotationInfo} {S : Finset FName}
    {i : Instr} {rest : List Instr}
    (h : inlineCallsStep M SAA S (i :: rest) = none) :
    NoAction M SAA S i ∧ inlineCallsStep M SAA S rest = none := by
  cases i with
  | other t =>
    refine ⟨fun g hg => by simp at hg, ?_⟩
    have : (inlineCallsStep M SAA S rest).map (fun r => Instr.other t :: r) = none := h
    exact Option.map_eq_none'.mp this
  | call c =>
    cases c with
    | none =>
      refine ⟨fun g hg => by simp at hg, ?_⟩
      have : (inlineCallsStep M SAA S rest).map (fun r => Instr.call none :: r) = none := h
      exact Option.map_eq_none'.mp this
    | some g0 =>
      simp only [inlineCallsStep] at h
      by_cases hc1 : g0 ∈ S ∧ SAA.isSplitterFunc g0 = false
      · rw [if_pos hc1] at h
        by_cases hdef : hasDef M g0 = true
        · rw [if_pos hdef] at h; simp at h
        · rw [if_neg hdef] at h
          rw [Bool.not_eq_true] at hdef
          refine ⟨?_, Option.map_eq_none'.mp h⟩
          intro g hg
          simp only [Instr.call.injEq, Option.some.injEq] at hg
          subst hg
          exact ⟨fun _ => hdef, fun hs => absurd hs (by simp [hc1.2])⟩
      · rw [if_neg hc1] at h
        by_cases hc2 : SAA.isSplitterFunc g0 = true ∧ g0 ≠ BarrierIntrinsicName
        · rw [if_pos hc2] at h; simp at h
        · rw [if_neg hc2] at h
          refine ⟨?_, Option.map_eq_none'.mp h⟩
          intro g hg
          simp only [Instr.call.injEq, Option.some.injEq] at hg
          subst hg
          constructor
          · intro hcc; exact absurd hcc hc1
          · intro hs
            by_contra hb
            exact hc2 ⟨hs, hb⟩

theorem inlineCallsStep_none_iff {M : IRModule} {SAA : SplitterAnnotationInfo}
    {S : Finset FName} :
    ∀ l, inlineCallsStep M SAA S l = none ↔ ∀ i ∈ l, NoAction M SAA S i := by
  intro l
  induction l with
  | nil =>
    simp only [inlineCallsStep, true_iff]
    intro i hi; simp at hi
  | cons i rest ih =>
    constructor
    · intro h i' hi'
      obtain ⟨hNA, hrest⟩ := step_cons_none_inv h
      rcases List.mem_cons.mp hi' with h0 | h0
      · exact h0 ▸ hNA
      · exact (ih.mp hrest) i' h0
    · intro h
      rw [noAction_skip (h i (List.mem_cons_self i rest)) rest]
      rw [Option.map_eq_none']
      exact ih.mpr (fun i' hi' => h i' (List.mem_cons_of_mem i hi'))

theorem inlineCallsStep_append_none {M : IRModule} {SAA : SplitterAnnotationInfo}
    {S : Finset FName} {pre : List Instr}
    (hpre : inlineCallsStep M SAA S pre = none) :
    ∀ l, inlineCallsStep M SAA S (pre ++ l) =
      (inlineCallsStep M SAA S l).map (fun r => pre ++ r) := by
  induction pre with
  | nil =>
    intro l
    cases h : inlineCallsStep M SAA S l <;> simp [h]
  | cons i pre ih =>
    intro l
    obtain ⟨hNA, hpre'⟩ := step_cons_none_inv hpre
    rw [List.cons_append, noAction_skip hNA, ih hpre']
    cases h : inlineCallsStep M SAA S l <;> simp [h]

/-- One scan action reaches the same block with new call targets only from
the old block, the canonical barrier intrinsic, or the body of an inlined
non-splitter member of the splitter-caller set. -/
theorem inlineCallsStep_targets {M : IRModule} {SAA : SplitterAnnotationInfo}
    {S : Finset FName} :
    ∀ l l', inlineCallsStep M SAA S l = some l' →
      ∀ t ∈ instrListTargets l', t ∈ instrListTargets l ∨ t = BarrierIntrinsicName ∨
        ∃ g ∈ S, SAA.isSplitterFunc g = false ∧ t ∈ funcTargets M g := by
  intro l
  induction l with
  | nil => intro l' h; simp [inlineCallsStep] at h
  | cons i rest ih =>
    intro l' h t ht
    have hskip : ∀ r, inlineCallsStep M SAA S rest = some r → l' = i :: r →
        t ∈ instrListTargets (i :: rest) ∨ t = BarrierIntrinsicName ∨
          ∃ g ∈ S, SAA.isSplitterFunc g = false ∧ t ∈ funcTargets M g := by
      intro r hr hl'
      subst hl'
      have : instrListTargets (i :: r) = instrListTargets [i] ++ instrListTargets r := by
        rw [← instrListTargets_append]; rfl
      rw [this, List.mem_append] at ht
      rcases ht with h0 | h0
      · left
        have : instrListTargets (i :: rest) = instrListTargets [i] ++ instrListTargets rest := by
          rw [← instrListTargets_append]; rfl
        rw [this, List.mem_append]
        exact Or.inl h0
      · rcases ih r hr t h0 with h1 | h1
        · left
          have : instrListTargets (i :: rest) = instrListTargets [i] ++ instrListTargets rest := by
            rw [← instrListTargets_append]; rfl
          rw [this, List.mem_append]
          exact Or.inr h1
        · exact Or.inr h1
    cases i with
    | other tg =>
      have h' : (inlineCallsStep M SAA S rest).map (fun r => Instr.other tg :: r) = some l' := h
      obtain ⟨r, hr, hl'⟩ := Option.map_eq_some'.mp h'
      exact hskip r hr hl'.symm
    | call c =>
      cases c with
      | none =>
        have h' : (inlineCallsStep M SAA S rest).map (fun r => Instr.call none :: r) = some l' := h
        obtain ⟨r, hr, hl'⟩ := Option.map_eq_some'.mp h'
        exact hskip r hr hl'.symm
      | some g0 =>
        simp only [inlineCallsStep] at h
        by_cases hc1 : g0 ∈ S ∧ SAA.isSplitterFunc g0 = false
        · rw [if_pos hc1] at h
          by_cases hdef : hasDef M g0 = true
          · rw [if_pos hdef] at h
            simp only [Option.some.injEq] at h
            subst h
            rw [instrListTargets_append, List.mem_append] at ht
            rcases ht with h0 | h0
            · rw [instrListTargets_flatBody] at h0
              exact Or.inr (Or.inr ⟨g0, hc1.1, hc1.2, h0⟩)
            · left
              have : instrListTargets (Instr.call (some g0) :: rest) =
                  instrListTargets [Instr.call (some g0)] ++ instrListTargets rest := by
                rw [← instrListTargets_append]; rfl
              rw [this, List.mem_append]
              exact Or.inr h0
          · rw [if_neg hdef] at h
            obtain ⟨r, hr, hl'⟩ := Option.map_eq_some'.mp h
            exact hskip r hr hl'.symm
        · rw [if_neg hc1] at h
          by_cases hc2 : SAA.isSplitterFunc g0 = true ∧ g0 ≠ BarrierIntrinsicName
          · rw [if_pos hc2] at h
            simp only [Option.some.injEq] at h
            subst h
            have : instrListTargets (Instr.call (some BarrierIntrinsicName) :: rest) =
                instrListTargets [Instr.call (some BarrierIntrinsicName)] ++
                  instrListTargets rest := by
              rw [← instrListTargets_append]; rfl
            rw [this, List.mem_append] at ht
            rcases ht with h0 | h0
            · right; left
              simpa [instrListTargets, instrTarget] using h0
            · left
              have : instrListTargets (Instr.call (some g0) :: rest) =
                  instrListTargets [Instr.call (some g0)] ++ instrListTargets rest := by
                rw [← instrListTargets_append]; rfl
              rw [this, List.mem_append]
              exact Or.inr h0
          · rw [if_neg hc2] at h
            obtain ⟨r, hr, hl'⟩ := Option.map_eq_some'.mp h
            exact hskip r hr hl'.symm

theorem stepBlocks_none_iff {M : IRModule} {SAA : SplitterAnnotationInfo} {S : Finset FName} :
    ∀ (idxs : List Nat) (blocks : List BasicBlock),
      inlineCallsStepBlocks M SAA S idxs blocks = none ↔
        ∀ i ∈ idxs, ∀ b, blocks.get? i = some b → inlineCallsStep M SAA S b = none := by
  intro idxs
  induction idxs with
  | nil =>
    intro blocks
    simp only [inlineCallsStepBlocks, true_iff]
    intro i hi; simp at hi
  | cons i is ih =>
    intro blocks
    constructor
    · intro h j hj b hb
      have hrec : inlineCallsStepBlocks M SAA S is blocks = none := by
        simp only [inlineCallsStepBlocks] at h
        cases hgi : blocks.get? i with
        | none => simp only [hgi] at h; exact h
        | some b0 =>
          simp only [hgi] at h
          cases hst : inlineCallsStep M SAA S b0 with
          | none => simp only [hst] at h; exact h
          | some b' => simp only [hst] at h; exact absurd h (by simp)
      rcases List.mem_cons.mp hj with h0 | h0
      · rw [h0] at hb
        simp only [inlineCallsStepBlocks, hb] at h
        cases hst : inlineCallsStep M SAA S b with
        | none => rfl
        | some b' => simp only [hst] at h; exact absurd h (by simp)
      · exact (ih blocks).mp hrec j h0 b hb
    · intro h
      simp only [inlineCallsStepBlocks]
      cases hgi : blocks.get? i with
      | none =>
        simp only [hgi]
        exact (ih blocks).mpr (fun j hj b hb => h j (List.mem_cons_of_mem i hj) b hb)
      | some b0 =>
        simp only [hgi, h i (List.mem_cons_self i is) b0 hgi]
        exact (ih blocks).mpr (fun j hj b hb => h j (List.mem_cons_of_mem i hj) b hb)

theorem stepBlocks_some_inv {M : IRModule} {SAA : SplitterAnnotationInfo} {S : Finset FName} :
    ∀ (idxs : List Nat) (blocks blocks' : List BasicBlock),
      inlineCallsStepBlocks M SAA S idxs blocks = some blocks' →
        ∃ i ∈ idxs, ∃ b b', blocks.get? i = some b ∧
          inlineCallsStep M SAA S b = some b' ∧ blocks' = blocks.set i b' := by
  intro idxs
  induction idxs with
  | nil => intro blocks blocks' h; simp [inlineCallsStepBlocks] at h
  | cons i is ih =>
    intro blocks blocks' h
    simp only [inlineCallsStepBlocks] at h
    cases hgi : blocks.get? i with
    | none =>
      simp only [hgi] at h
      obtain ⟨j, hj, b, b', hb, hst, hset⟩ := ih blocks blocks' h
      exact ⟨j, List.mem_cons_of_mem i hj, b, b', hb, hst, hset⟩
    | some b0 =>
      simp only [hgi] at h
      cases hst : inlineCallsStep M SAA S b0 with
      | some b1 =>
        simp only [hst, Option.some.injEq] at h
        exact ⟨i, List.mem_cons_self i is, b0, b1, hgi, hst, h.symm⟩
      | none =>
        simp only [hst] at h
        obtain ⟨j, hj, b, b', hb, hst', hset⟩ := ih blocks blocks' h
        exact ⟨j, List.mem_cons_of_mem i hj, b, b', hb, hst', hset⟩

theorem stepBlocks_frame {M : IRModule} {SAA : SplitterAnnotationInfo} {S : Finset FName}
    {idxs : List Nat} {blocks blocks' : List BasicBlock}
    (h : inlineCallsStepBlocks M SAA S idxs blocks = some blocks') :
    ∀ j, j ∉ idxs → blocks'.get? j = blocks.get? j := by
  intro j hj
  obtain ⟨i, hi, b, b', _, _, hset⟩ := stepBlocks_some_inv idxs blocks blocks' h
  have hne : i ≠ j := fun hij => hj (hij ▸ hi)
  rw [hset]
  exact List.get?_set_ne b' blocks hne

theorem stepBlocks_length {M : IRModule} {SAA : SplitterAnnotationInfo} {S : Finset FName}
    {idxs : List Nat} {blocks blocks' : List BasicBlock}
    (h : inlineCallsStepBlocks M SAA S idxs blocks = some blocks') :
    blocks'.length = blocks.length := by
  obtain ⟨i, _, b, b', _, _, hset⟩ := stepBlocks_some_inv idxs blocks blocks' h
  rw [hset, List.length_set]

theorem inlineCallsInScope_fix {M : IRModule} {SAA : SplitterAnnotationInfo} {S : Finset FName}
    {idxs : List Nat} :
    ∀ (fuel : Nat) (blocks : List BasicBlock) (ch : Bool) (bs : List BasicBlock) (ch' : Bool),
      inlineCallsInScope M SAA S idxs fuel blocks ch = some (bs, ch') →
      inlineCallsStepBlocks M SAA S idxs bs = none := by
  intro fuel
  induction fuel with
  | zero => intro blocks ch bs ch' h; simp [inlineCallsInScope] at h
  | succ fuel ih =>
    intro blocks ch bs ch' h
    rw [inlineCallsInScope] at h
    revert h
    cases hst : inlineCallsStepBlocks M SAA S idxs blocks with
    | none =>
      intro h
      simp only [Option.some.injEq, Prod.mk.injEq] at h
      rw [← h.1]
      exact hst
    | some blocks' =>
      intro h
      exact ih blocks' true bs ch' h

/-- Any block-list property preserved by one scope step is preserved by the
whole scope-level run. -/
theorem inlineCallsInScope_inv {M : IRModule} {SAA : SplitterAnnotationInfo} {S : Finset FName}
    {idxs : List Nat} {P : List BasicBlock → Prop}
    (hstep : ∀ b b', inlineCallsStepBlocks M SAA S idxs b = some b' → P b → P b') :
    ∀ (fuel : Nat) (blocks : List BasicBlock) (ch : Bool) (bs : List BasicBlock) (ch' : Bool),
      inlineCallsInScope M SAA S idxs fuel blocks ch = some (bs, ch') →
      P blocks → P bs := by
  intro fuel
  induction fuel with
  | zero => intro blocks ch bs ch' h; simp [inlineCallsInScope] at h
  | succ fuel ih =>
    intro blocks ch bs ch' h hP
    rw [inlineCallsInScope] at h
    revert h
    cases hst : inlineCallsStepBlocks M SAA S idxs blocks with
    | none =>
      intro h
      simp only [Option.some.injEq, Prod.mk.injEq] at h
      rw [← h.1]
      exact hP
    | some blocks' =>
      intro h
      exact ih blocks' true bs ch' h (hstep blocks blocks' hst hP)

theorem inlineCallsInScope_changed {M : IRModule} {SAA : SplitterAnnotationInfo}
    {S : Finset FName} {idxs : List Nat} :
    ∀ (fuel : Nat) (blocks : List BasicBlock) (bs : List BasicBlock) (ch' : Bool),
      inlineCallsInScope M SAA S idxs fuel blocks true = some (bs, ch') → ch' = true := by
  intro fuel
  induction fuel with
  | zero => intro blocks bs ch' h; simp [inlineCallsInScope] at h
  | succ fuel ih =>
    intro blocks bs ch' h
    rw [inlineCallsInScope] at h
    revert h
    cases hst : inlineCallsStepBlocks M SAA S idxs blocks with
    | none =>
      intro h
      simp only [Option.some.injEq, Prod.mk.injEq] at h
      exact h.2.symm
    | some blocks' =>
      intro h
      exact ih blocks' bs ch' h

/-- A scope-level run that reports "no change" did not touch the blocks. -/
theorem inlineCallsInScope_unchanged {M : IRModule} {SAA : SplitterAnnotationInfo}
    {S : Finset FName} {idxs : List Nat} :
    ∀ (fuel : Nat) (blocks : List BasicBlock) (bs : List BasicBlock),
      inlineCallsInScope M SAA S idxs fuel blocks false = some (bs, false) → bs = blocks := by
  intro fuel
  induction fuel with
  | zero => intro blocks bs h; simp [inlineCallsInScope] at h
  | succ fuel _ =>
    intro blocks bs h
    rw [inlineCallsInScope] at h
    revert h
    cases hst : inlineCallsStepBlocks M SAA S idxs blocks with
    | none =>
      intro h
      simp only [Option.some.injEq, Prod.mk.injEq] at h
      exact h.1.symm
    | some blocks' =>
      intro h
      exact absurd (inlineCallsInScope_changed fuel blocks' bs false h) (by simp)

/-- A scope-level run whose input is already at the fixed point reports "no
change" and returns the blocks untouched. -/
theorem inlineCallsInScope_of_fix {M : IRModule} {SAA : SplitterAnnotationInfo}
    {S : Finset FName} {idxs : List Nat} {fuel : Nat} {blocks : List BasicBlock}
    {bs : List BasicBlock} {ch' : Bool}
    (hfix : inlineCallsStepBlocks M SAA S idxs blocks = none)
    (h : inlineCallsInScope M SAA S idxs fuel blocks false = some (bs, ch')) :
    bs = blocks ∧ ch' = false := by
  cases fuel with
  | zero => simp [inlineCallsInScope] at h
  | succ fuel =>
    rw [inlineCallsInScope, hfix] at h
    simp only [Option.some.injEq, Prod.mk.injEq] at h
    exact ⟨h.1.symm, h.2.symm⟩

theorem mem_selectBlocks {blocks : List BasicBlock} {idxs : List Nat} {b : BasicBlock} :
    b ∈ selectBlocks blocks idxs ↔ ∃ i ∈ idxs, blocks.get? i = some b := by
  simp [selectBlocks, List.mem_filterMap]

theorem selectBlocks_range (blocks : List BasicBlock) :
    selectBlocks blocks (List.range blocks.length) = blocks := by
  induction blocks with
  | nil => rfl
  | cons b bl ih =>
    rw [List.length_cons, List.range_succ_eq_map]
    simp only [selectBlocks, List.filterMap_cons, List.get?_cons_zero, List.filterMap_map]
    have hc : ((fun i => (b :: bl).get? i) ∘ Nat.succ) = (fun i => bl.get? i) :=
      funext (fun i => rfl)
    rw [hc]
    simp only [selectBlocks] at ih
    rw [ih]

theorem findFunc_update_self {M : IRModule} {n : FName} {bs : List BasicBlock} {fn : Func}
    (h : findFunc M n = some fn) :
    findFunc (updateFunc M n bs) n = some { fn with blocks := bs } := by
  unfold findFunc updateFunc at *
  induction M with
  | nil => simp at h
  | cons f M ih =>
    simp only [List.map_cons]
    by_cases hf : f.name = n
    · rw [if_pos hf]
      rw [List.find?_cons_of_pos _ (by simp [hf])] at h
      simp only [Option.some.injEq] at h
      rw [List.find?_cons_of_pos _ (by simp [hf])]
      rw [← h]
    · rw [if_neg hf]
      rw [List.find?_cons_of_neg _ (by simp [hf])] at h
      rw [List.find?_cons_of_neg _ (by simp [hf])]
      exact ih h

theorem findFunc_update_ne {M : IRModule} {n : FName} {bs : List BasicBlock} {m : FName}
    (hne : m ≠ n) : findFunc (updateFunc M n bs) m = findFunc M m := by
  unfold findFunc updateFunc
  induction M with
  | nil => rfl
  | cons f M ih =>
    simp only [List.map_cons]
    by_cases hf : f.name = n
    · rw [if_pos hf]
      rw [List.find?_cons_of_neg _ (by simp [hf, Ne.symm hne]),
        List.find?_cons_of_neg _ (by simp [hf, Ne.symm hne])]
      exact ih
    · rw [if_neg hf]
      by_cases hm : f.name = m
      · rw [List.find?_cons_of_pos _ (by simp [hm]), List.find?_cons_of_pos _ (by simp [hm])]
      · rw [List.find?_cons_of_neg _ (by simp [hm]), List.find?_cons_of_neg _ (by simp [hm])]
        exact ih

theorem funcTargets_update_ne {M : IRModule} {n : FName} {bs : List BasicBlock} {m : FName}
    (hne : m ≠ n) : funcTargets (updateFunc M n bs) m = funcTargets M m := by
  unfold funcTargets
  rw [findFunc_update_ne hne]

/-- If `n` is never called anywhere in `M`, replacing `n`'s body changes no
reachability fact about any other function. -/
theorem reaches_update_iff {M : IRModule} {SAA : SplitterAnnotationInfo} {n : FName}
    {bs : List BasicBlock} (hnc : n ∉ moduleTargets M) {g : FName} (hg : g ≠ n) :
    Reaches (updateFunc M n bs) SAA g ↔ Reaches M SAA g := by
  constructor
  · intro h
    revert hg
    induction h with
    | splitter f hs => intro _; exact Reaches.splitter f hs
    | step f g' hg' hr ih =>
      intro hf
      rw [funcTargets_update_ne hf] at hg'
      have hg'n : g' ≠ n := fun he => hnc (he ▸ mem_moduleTargets_of_funcTargets hg')
      exact Reaches.step f g' hg' (ih hg'n)
  · intro h
    revert hg
    induction h with
    | splitter f hs => intro _; exact Reaches.splitter f hs
    | step f g' hg' hr ih =>
      intro hf
      have hg'n : g' ≠ n := fun he => hnc (he ▸ mem_moduleTargets_of_funcTargets hg')
      exact Reaches.step f g' (by rw [funcTargets_update_ne hf]; exact hg') (ih hg'n)

theorem mem_blockTargets_iff {bs : List BasicBlock} {g : FName} :
    g ∈ blockTargets bs ↔ ∃ b ∈ bs, Instr.call (some g) ∈ b := by
  unfold blockTargets
  rw [mem_instrListTargets, List.mem_flatten]

theorem blockTargets_selectBlocks_subset {blocks : List BasicBlock} {idxs : List Nat}
    {t : FName} (h : t ∈ blockTargets (selectBlocks blocks idxs)) :
    t ∈ blockTargets blocks := by
  rw [mem_blockTargets_iff] at h ⊢
  obtain ⟨b, hb, hcall⟩ := h
  obtain ⟨i, _, hgi⟩ := mem_selectBlocks.mp hb
  exact ⟨b, List.get?_mem hgi, hcall⟩

/-- At a scope fixed point, a remaining resolved call into a sound
splitter-caller set can only target the canonical barrier intrinsic. -/
theorem fix_no_splitterset_calls {M : IRModule} {SAA : SplitterAnnotationInfo}
    {S : Finset FName} {idxs : List Nat} {bs : List BasicBlock}
    (hsound : SoundSet M SAA S)
    (hfix : inlineCallsStepBlocks M SAA S idxs bs = none) :
    ∀ i ∈ idxs, ∀ b, bs.get? i = some b → ∀ g, Instr.call (some g) ∈ b →
      g ∈ S → g = BarrierIntrinsicName := by
  intro i hi b hb g hg hgS
  have hscan := (stepBlocks_none_iff idxs bs).mp hfix i hi b hb
  have hNA := (inlineCallsStep_none_iff b).mp hscan _ hg g rfl
  by_cases hsp : SAA.isSplitterFunc g = true
  · exact hNA.2 hsp
  · exfalso
    rw [Bool.not_eq_true] at hsp
    have hdef : hasDef M g = true := funcTargets_hasDef ((hsound g hgS).2 hsp)
    have hnd := hNA.1 ⟨hgS, hsp⟩
    rw [hdef] at hnd
    exact absurd hnd (by simp)

/-- C10: in the new-pass-manager entry point, a missing cached
`SplitterAnnotationAnalysis` result makes the pass return the function
unchanged and report all analyses preserved, for every function (kernel or
not). -/
theorem C10_no_cached_saa (M : IRModule) (fuel : Nat) (wiLoop : Option WorkItemLoop)
    (F : Func) : passRun M none fuel wiLoop F = some (F, PreservedAnalyses.all) := rfl

/-- C6: a function not classified as a kernel is returned unchanged with a
"no change" report, by both the legacy and the new-pass-manager entry
points. -/
theorem C6_nonkernel_unchanged {M : IRModule} {SAA : SplitterAnnotationInfo} {fuel : Nat}
    {wiLoop : Option WorkItemLoop} {F : Func}
    (h : SAA.isKernelFunc F.name = false) :
    runOnFunction M SAA fuel wiLoop F = some (F, false) ∧
      passRun M (some SAA) fuel wiLoop F = some (F, PreservedAnalyses.all) := by
  constructor
  · simp [runOnFunction, h]
  · simp [passRun, h]

theorem C6_witness :
    (SplitterAnnotationInfo.isKernelFunc ⟨∅, {0}, by decide⟩ 7 = false) ∧
      runOnFunction [] ⟨∅, {0}, by decide⟩ 3 none ⟨7, [[Instr.other 1]]⟩ =
        some (⟨7, [[Instr.other 1]]⟩, false) ∧
      passRun [] (some ⟨∅, {0}, by decide⟩) 3 none ⟨7, [[Instr.other 1]]⟩ =
        some (⟨7, [[Instr.other 1]]⟩, PreservedAnalyses.all) :=
  ⟨by decide, C6_nonkernel_unchanged (by decide)⟩

/-- C9: with a single identified work-item loop, the pass leaves every
block outside the loop's blocks untouched (whatever the outcome of the
in-loop transformation), and does not rename the function. -/
theorem C9_loop_scope_frame {M : IRModule} {SAA : SplitterAnnotationInfo} {fuel : Nat}
    {L : WorkItemLoop} {F F' : Func} {ch : Bool}
    (h : runOnFunction M SAA fuel (some L) F = some (F', ch)) :
    F'.name = F.name ∧ ∀ j, j ∉ L.blockIdxs → F'.blocks.get? j = F.blocks.get? j := by
  unfold runOnFunction at h
  by_cases hk : SAA.isKernelFunc F.name = false
  · rw [if_pos hk] at h
    simp only [Option.some.injEq, Prod.mk.injEq] at h
    rw [← h.1]
    exact ⟨rfl, fun j _ => rfl⟩
  · rw [if_neg hk] at h
    simp only [inlineSplitter] at h
    cases hL : inlineSplitterLoop M SAA fuel L F.blocks with
    | none => rw [hL] at h; exact absurd h (by simp)
    | some p =>
      obtain ⟨bs, ch'⟩ := p
      rw [hL] at h
      simp only [Option.some.injEq, Prod.mk.injEq] at h
      obtain ⟨hF', _⟩ := h
      rw [← hF']
      refine ⟨rfl, ?_⟩
      intro j hj
      show bs.get? j = F.blocks.get? j
      unfold inlineSplitterLoop at hL
      by_cases hwi : L.isWorkItem = false
      · rw [if_pos hwi] at hL
        simp only [Option.some.injEq, Prod.mk.injEq] at hL
        rw [hL.1]
      · rw [if_neg hwi] at hL
        cases hfill : fillTransitiveSplitterCallersBlocks M SAA fuel
            (selectBlocks F.blocks L.blockIdxs) ∅ with
        | none => rw [hfill] at hL; exact absurd hL (by simp)
        | some p2 =>
          obtain ⟨fnd, S⟩ := p2
          rw [hfill] at hL
          cases fnd with
          | false =>
            simp only [Option.some.injEq, Prod.mk.injEq] at hL
            rw [hL.1]
          | true =>
            exact inlineCallsInScope_inv
              (P := fun bl => bl.get? j = F.blocks.get? j)
              (fun b b' hstep hP => (stepBlocks_frame hstep j hj).trans hP)
              fuel F.blocks false bs ch' hL rfl

theorem C9_witness :
    runOnFunction Mw9 SAAw9 10 (some ⟨[0], true⟩) Fw9 = some (Fw9', true) ∧
      Fw9'.blocks.get? 1 = Fw9.blocks.get? 1 :=
  ⟨by decide,
    (@C9_loop_scope_frame Mw9 SAAw9 10 ⟨[0], true⟩ Fw9 Fw9' true (by decide)).2 1 (by decide)⟩

/-- C4: a resolved call to a splitter whose name differs from the canonical
barrier-intrinsic name is replaced, at its program point, by a call to the
canonical barrier intrinsic (the original call is erased); and a call whose
target is the canonical barrier intrinsic itself is never inlined — the
scan leaves it in place. -/
theorem C4_barrier_canonicalisation {M : IRModule} {SAA : SplitterAnnotationInfo}
    {S : Finset FName} {pre rest : List Instr} {g : FName}
    (hsp : SAA.isSplitterFunc g = true) (hbar : g ≠ BarrierIntrinsicName)
    (hpre : inlineCallsStep M SAA S pre = none) :
    inlineCallsStep M SAA S (pre ++ Instr.call (some g) :: rest) =
      some (pre ++ Instr.call (some BarrierIntrinsicName) :: rest) ∧
    inlineCallsStep M SAA S (Instr.call (some BarrierIntrinsicName) :: rest) =
      (inlineCallsStep M SAA S rest).map
        (fun r => Instr.call (some BarrierIntrinsicName) :: r) := by
  have hbspl : SAA.isSplitterFunc BarrierIntrinsicName = true := by
    simp [SplitterAnnotationInfo.isSplitterFunc, SAA.barrier_is_splitter]
  constructor
  · rw [inlineCallsStep_append_none hpre]
    have hstep : inlineCallsStep M SAA S (Instr.call (some g) :: rest) =
        some (Instr.call (some BarrierIntrinsicName) :: rest) := by
      simp only [inlineCallsStep]
      rw [if_neg (by simp [hsp]), if_pos ⟨hsp, hbar⟩]
    rw [hstep]
    rfl
  · simp only [inlineCallsStep]
    rw [if_neg (by simp [hbspl]), if_neg (by simp)]

theorem C4_witness :
    (SplitterAnnotationInfo.isSplitterFunc ⟨∅, {0, 4}, by decide⟩ 4 = true) ∧
    inlineCallsStep [] ⟨∅, {0, 4}, by decide⟩ ∅
        ([Instr.other 1] ++ Instr.call (some 4) :: [Instr.other 2]) =
      some ([Instr.other 1] ++ Instr.call (some BarrierIntrinsicName) :: [Instr.other 2]) ∧
    inlineCallsStep [] ⟨∅, {0, 4}, by decide⟩ ∅
        (Instr.call (some BarrierIntrinsicName) :: [Instr.other 2]) =
      (inlineCallsStep [] ⟨∅, {0, 4}, by decide⟩ ∅ [Instr.other 2]).map
        (fun r => Instr.call (some BarrierIntrinsicName) :: r) :=
  ⟨by decide, C4_barrier_canonicalisation (by decide) (by decide) (by decide)⟩

/-- C3 counterexample: a call whose target is in the splitter-caller set
and is not the canonical barrier intrinsic, but is an annotated splitter
(here function `5`, with a nonempty body `[other 42]`): the pass replaces
the call with a canonical barrier-intrinsic call instead of inlining the
callee's body, contradicting the claim's "target in splitterCallerSet and
not the barrier intrinsic ⟹ inline". -/
theorem C3_counterexample :
    fillFold (fillTransitiveSplitterCallers [⟨5, [[Instr.other 42]]⟩ ]
        ⟨∅, {0, 5}, by decide⟩ 10) [5] ∅ = some (true, {5}) ∧
    (5 : FName) ∈ ({5} : Finset FName) ∧
    (5 : FName) ≠ BarrierIntrinsicName ∧
    flatBody [⟨5, [[Instr.other 42]]⟩ ] 5 = [Instr.other 42] ∧
    inlineCallsStep [⟨5, [[Instr.other 42]]⟩ ] ⟨∅, {0, 5}, by decide⟩ {5}
        [Instr.call (some 5)] = some [Instr.call (some BarrierIntrinsicName)] ∧
    some [Instr.call (some BarrierIntrinsicName)] ≠
      some ([Instr.other 42] ++ ([] : List Instr)) := by
  refine ⟨by decide, by decide, by decide, by decide, by decide, by decide⟩

/-- C3 (amended): a resolved call whose target is in the computed
splitter-caller set and is not an annotated splitter is inlined: the call
instruction is replaced in place by the callee's body. -/
theorem C3_inline_splitter_callers {M : IRModule} {SAA : SplitterAnnotationInfo}
    {S : Finset FName} {fuel : Nat} {Froot : FName} {fnd : Bool} {pre rest : List Instr}
    {g : FName}
    (hfill : fillTransitiveSplitterCallers M SAA fuel Froot ∅ = some (fnd, S))
    (hgS : g ∈ S) (hsp : SAA.isSplitterFunc g = false)
    (hpre : inlineCallsStep M SAA S pre = none) :
    inlineCallsStep M SAA S (pre ++ Instr.call (some g) :: rest) =
      some (pre ++ (flatBody M g ++ rest)) := by
  have hsound := (fill_master fuel M SAA Froot ∅ fnd S hfill (soundSet_empty M SAA)
    (closedSet_empty M SAA)).sound
  have hdef : hasDef M g = true := funcTargets_hasDef ((hsound g hgS).2 hsp)
  rw [inlineCallsStep_append_none hpre]
  have hstep : inlineCallsStep M SAA S (Instr.call (some g) :: rest) =
      some (flatBody M g ++ rest) := by
    simp only [inlineCallsStep]
    rw [if_pos ⟨hgS, hsp⟩, if_pos hdef]
  rw [hstep]
  rfl

theorem C3_witness :
    fillTransitiveSplitterCallers Mw3 SAAw3 10 1 ∅ = some (true, Sw3) ∧
    inlineCallsStep Mw3 SAAw3 Sw3 ([Instr.other 7] ++ Instr.call (some 2) :: []) =
      some ([Instr.other 7] ++ (flatBody Mw3 2 ++ [])) :=
  ⟨rfl,
    @C3_inline_splitter_callers Mw3 SAAw3 Sw3 10 1 true [Instr.other 7] [] 2
      rfl (by decide) (by decide) (by decide)⟩

/-- C1: once the scope-level inlining fixed point is reached, no remaining
resolved call in the scope targets a member of the computed splitter-caller
set unless the target is the canonical barrier intrinsic — stated for both
the function-scope set and a blocks-scope (loop) set. -/
theorem C1_fixed_point_no_set_calls {M : IRModule} {SAA : SplitterAnnotationInfo} :
    (∀ (fuel fuel2 : Nat) (Froot : FName) (fnd : Bool) (S : Finset FName) (idxs : List Nat)
        (blocks bs : List BasicBlock) (ch : Bool),
      fillTransitiveSplitterCallers M SAA fuel Froot ∅ = some (fnd, S) →
      inlineCallsInScope M SAA S idxs fuel2 blocks false = some (bs, ch) →
      ∀ i ∈ idxs, ∀ b, bs.get? i = some b → ∀ g, Instr.call (some g) ∈ b → g ∈ S →
        g = BarrierIntrinsicName) ∧
    (∀ (fuel fuel2 : Nat) (scope : List BasicBlock) (fnd : Bool) (S : Finset FName)
        (idxs : List Nat) (blocks bs : List BasicBlock) (ch : Bool),
      fillTransitiveSplitterCallersBlocks M SAA fuel scope ∅ = some (fnd, S) →
      inlineCallsInScope M SAA S idxs fuel2 blocks false = some (bs, ch) →
      ∀ i ∈ idxs, ∀ b, bs.get? i = some b → ∀ g, Instr.call (some g) ∈ b → g ∈ S →
        g = BarrierIntrinsicName) := by
  constructor
  · intro fuel fuel2 Froot fnd S idxs blocks bs ch hfill hrun
    have hsound := (fill_master fuel M SAA Froot ∅ fnd S hfill (soundSet_empty M SAA)
      (closedSet_empty M SAA)).sound
    exact fix_no_splitterset_calls hsound (inlineCallsInScope_fix fuel2 blocks false bs ch hrun)
  · intro fuel fuel2 scope fnd S idxs blocks bs ch hfill hrun
    have hsound := (fillFold_fill_outcome hfill (soundSet_empty M SAA)
      (closedSet_empty M SAA)).sound
    exact fix_no_splitterset_calls hsound (inlineCallsInScope_fix fuel2 blocks false bs ch hrun)

theorem C1_witness :
    fillTransitiveSplitterCallers Mw1 SAAw1 10 1 ∅ = some (true, Sw1) ∧
    inlineCallsInScope Mw1 SAAw1 Sw1 [0] 5 [[Instr.call (some 0)]] false =
      some ([[Instr.call (some 0)]], false) ∧
    (0 : FName) = BarrierIntrinsicName :=
  ⟨rfl, by decide,
    ((@C1_fixed_point_no_set_calls Mw1 SAAw1).1 10 5 1 true Sw1 [0] [[Instr.call (some 0)]]
        [[Instr.call (some 0)]] false rfl (by decide)) 0 (by decide)
      [Instr.call (some 0)] (by decide) 0 (by decide) (by decide)⟩

/-- A function that is not a splitter and has no resolved call targets
reaches no splitter. -/
theorem not_reaches_leaf {M : IRModule} {SAA : SplitterAnnotationInfo} {f : FName}
    (hsp : SAA.isSplitterFunc f = false) (hft : funcTargets M f = []) :
    ¬ Reaches M SAA f := by
  intro h
  rcases reaches_iff.mp h with hs | ⟨g, hg, _⟩
  · rw [hsp] at hs; exact absurd hs (by simp)
  · rw [hft] at hg; exact List.not_mem_nil g hg

/-- C7: a kernel function with no transitive call to any splitter is
returned unchanged with a "no change" report, under either scope choice
of the driver. -/
theorem C7_no_splitter_no_change {M : IRModule} {SAA : SplitterAnnotationInfo} {fuel : Nat}
    {wiLoop : Option WorkItemLoop} {F F' : Func} {ch : Bool}
    (hf : findFunc M F.name = some F)
    (hk : SAA.isKernelFunc F.name = true)
    (hns : ∀ t ∈ blockTargets F.blocks, ¬ Reaches M SAA t)
    (h : runOnFunction M SAA fuel wiLoop F = some (F', ch)) :
    F' = F ∧ ch = false := by
  unfold runOnFunction at h
  rw [if_neg (by simp [hk])] at h
  cases wiLoop with
  | some L =>
    simp only [inlineSplitter] at h
    cases hL : inlineSplitterLoop M SAA fuel L F.blocks with
    | none => rw [hL] at h; exact absurd h (by simp)
    | some p =>
      obtain ⟨bs, chr⟩ := p
      rw [hL] at h
      simp only [Option.some.injEq, Prod.mk.injEq] at h
      have hbs : bs = F.blocks ∧ chr = false := by
        unfold inlineSplitterLoop at hL
        by_cases hwi : L.isWorkItem = false
        · rw [if_pos hwi] at hL
          simp only [Option.some.injEq, Prod.mk.injEq] at hL
          exact ⟨hL.1.symm, hL.2.symm⟩
        · rw [if_neg hwi] at hL
          cases hfill : fillTransitiveSplitterCallersBlocks M SAA fuel
              (selectBlocks F.blocks L.blockIdxs) ∅ with
          | none => rw [hfill] at hL; exact absurd hL (by simp)
          | some p2 =>
            obtain ⟨fnd, S⟩ := p2
            cases fnd with
            | false =>
              simp only [hfill, Option.some.injEq, Prod.mk.injEq] at hL
              exact ⟨hL.1.symm, hL.2.symm⟩
            | true =>
              exfalso
              obtain ⟨t, ht, hrt⟩ := (fillBlocks_spec hfill).2.mp rfl
              exact hns t (blockTargets_selectBlocks_subset ht) hrt
      refine ⟨?_, ?_⟩
      · rw [← h.1, hbs.1]
      · rw [← h.2, hbs.2]
  | none =>
    simp only [inlineSplitter] at h
    unfold inlineSplitterFn at h
    cases hfill : fillTransitiveSplitterCallers M SAA fuel F.name ∅ with
    | none => rw [hfill] at h; exact absurd h (by simp)
    | some p =>
      obtain ⟨fnd, S⟩ := p
      have hspec := fill_spec hfill
      cases fnd with
      | false =>
        simp only [hfill, Option.some.injEq, Prod.mk.injEq] at h
        exact ⟨h.1.symm, h.2.symm⟩
      | true =>
        have hrF : Reaches M SAA F.name := hspec.2.mp rfl
        by_cases hsp : SAA.isSplitterFunc F.name = true
        · -- degenerate: the kernel itself is annotated as a splitter; the
          -- computed set is the singleton of the kernel, and no block scan
          -- applies an action
          have hvis : ∀ f, VisitsFrom M SAA F.name f → f = F.name := by
            intro f hv
            induction hv with
            | base => rfl
            | step f0 g hv0 hsp0 hg0 ih =>
              rw [ih] at hsp0
              rw [hsp] at hsp0
              exact absurd hsp0 (by simp)
          have hnone : inlineCallsStepBlocks M SAA S
              (List.range F.blocks.length) F.blocks = none := by
            rw [stepBlocks_none_iff]
            intro i hi b hb
            rw [inlineCallsStep_none_iff]
            intro instr hinstr g hgeq
            have hbmem : b ∈ F.blocks := List.get?_mem hb
            have hgt : g ∈ blockTargets F.blocks :=
              mem_blockTargets_iff.mpr ⟨b, hbmem, hgeq ▸ hinstr⟩
            have hnr := hns g hgt
            constructor
            · rintro ⟨hgS, hgsp⟩
              have hgF : g = F.name := hvis g ((hspec.1 g).mp hgS).1
              exact absurd hgsp (by simp [hgF, hsp])
            · intro hgsp
              exact absurd (Reaches.splitter g hgsp) hnr
          cases hrun : inlineCallsInScope M SAA S (List.range F.blocks.length) fuel
              F.blocks false with
          | none => simp only [hfill, hrun] at h; exact absurd h (by simp)
          | some p2 =>
            obtain ⟨bs, chr⟩ := p2
            simp only [hfill, hrun, Option.some.injEq, Prod.mk.injEq] at h
            obtain ⟨hbs0, hch0⟩ := inlineCallsInScope_of_fix hnone hrun
            refine ⟨?_, ?_⟩
            · rw [← h.1, hbs0]
            · rw [← h.2, hch0]
        · exfalso
          rcases reaches_iff.mp hrF with hsp2 | ⟨g, hg, hgr⟩
          · exact hsp hsp2
          · rw [funcTargets_of_findFunc hf] at hg
            exact hns g hg hgr

theorem C7_witness :
    SAAw7.isKernelFunc Fw7.name = true ∧
      ((⟨1, [[Instr.call (some 2)]]⟩ : Func) = Fw7 ∧ false = false) :=
  ⟨by decide,
    @C7_no_splitter_no_change Mw7 SAAw7 10 none Fw7 ⟨1, [[Instr.call (some 2)]]⟩ false
      (by decide) (by decide)
      (fun t ht => by
        have h2 : blockTargets Fw7.blocks = [2] := rfl
        rw [h2, List.mem_singleton] at ht
        subst ht
        exact not_reaches_leaf (by decide) rfl)
      (by decide)⟩

/-- C5 counterexample: a kernel whose single identified loop is *not*
classified as a work-item loop, with a transitively reachable splitter: the
driver reports "no change" (it does not fall back to whole-function scope),
yet the whole-function-scoped transformation would have changed the
function — contradicting the claim that the driver "falls back to
whole-function-scoped transformation … when the identified loop is not
classified as a work-item loop". -/
theorem C5_counterexample :
    SAAc5.isKernelFunc Fc5.name = true ∧
    runOnFunction Mc5 SAAc5 10 (some ⟨[0], false⟩) Fc5 = some (Fc5, false) ∧
    inlineSplitterFn Mc5 SAAc5 10 Fc5 = some (⟨1, [[Instr.call (some 0)]]⟩, true) ∧
    (⟨1, [[Instr.call (some 0)]]⟩ : Func) ≠ Fc5 :=
  ⟨by decide, by decide, by decide, by decide⟩

/-- C5 (amended): for a kernel function the driver performs the loop-scoped
transformation when a single work-item loop is identified, falls back to
the whole-function scope only when no single loop is identified, and makes
no change at all when the identified loop is not classified as a work-item
loop. -/
theorem C5_scope_dispatch {M : IRModule} {SAA : SplitterAnnotationInfo} {fuel : Nat}
    {F : Func} (hk : SAA.isKernelFunc F.name = true) :
    runOnFunction M SAA fuel none F = inlineSplitterFn M SAA fuel F ∧
    (∀ L : WorkItemLoop, L.isWorkItem = false →
      runOnFunction M SAA fuel (some L) F = some (F, false)) ∧
    (∀ L : WorkItemLoop, L.isWorkItem = true →
      runOnFunction M SAA fuel (some L) F =
        (inlineSplitterLoop M SAA fuel L F.blocks).map
          (fun p => ({ F with blocks := p.1 }, p.2))) := by
  refine ⟨?_, ?_, ?_⟩
  · simp [runOnFunction, hk, inlineSplitter]
  · intro L hwi
    simp [runOnFunction, hk, inlineSplitter, inlineSplitterLoop, hwi]
  · intro L _
    unfold runOnFunction
    rw [if_neg (by simp [hk])]
    simp only [inlineSplitter]
    cases hL : inlineSplitterLoop M SAA fuel L F.blocks with
    | none => rfl
    | some p =>
      obtain ⟨bs, ch⟩ := p
      rfl

theorem C5_witness :
    SAAc5.isKernelFunc Fc5.name = true ∧
      runOnFunction Mc5 SAAc5 10 (some ⟨[0], false⟩) Fc5 = some (Fc5, false) :=
  ⟨by decide, (@C5_scope_dispatch Mc5 SAAc5 10 Fc5 (by decide)).2.1 ⟨[0], false⟩ rfl⟩

/-- C2 counterexample: function `2` is an annotated splitter that calls the
annotated splitter `3`.  `3` is reachable from the scope (`1 → 2 → 3`) and
is itself a splitter, so by the claim it belongs to the computed set; the
finder stops below the splitter `2` and never records `3`. -/
theorem C2_counterexample :
    fillTransitiveSplitterCallers Mc2 SAAc2 10 1 ∅ = some (true, Sc2) ∧
    (3 : FName) ∉ Sc2 ∧
    CallReachable Mc2 1 3 ∧
    SAAc2.isSplitterFunc 3 = true :=
  ⟨rfl, by decide,
    CallReachable.step 2 3 (CallReachable.step 1 2 CallReachable.base (by decide)) (by decide),
    by decide⟩

/-- C2 (amended): for terminating runs of the finder, the computed set is
exactly the set of functions that transitively reach a splitter *and* are
visited by the traversal — reachable from the scope along resolved-call
paths that pass through no splitter (the traversal stops at the first
splitter of each path); the returned flag reports exactly whether the scope
transitively reaches a splitter.  Stated for the function scope and for a
blocks (loop) scope. -/
theorem C2_splitterset_characterisation {M : IRModule} {SAA : SplitterAnnotationInfo} :
    (∀ (fuel : Nat) (F : FName) (fnd : Bool) (S' : Finset FName),
      fillTransitiveSplitterCallers M SAA fuel F ∅ = some (fnd, S') →
      (∀ f, f ∈ S' ↔ (VisitsFrom M SAA F f ∧ Reaches M SAA f)) ∧
        (fnd = true ↔ Reaches M SAA F)) ∧
    (∀ (fuel : Nat) (bs : List BasicBlock) (fnd : Bool) (S' : Finset FName),
      fillTransitiveSplitterCallersBlocks M SAA fuel bs ∅ = some (fnd, S') →
      (∀ f, f ∈ S' ↔ ((∃ t ∈ blockTargets bs, VisitsFrom M SAA t f) ∧ Reaches M SAA f)) ∧
        (fnd = true ↔ ∃ t ∈ blockTargets bs, Reaches M SAA t)) :=
  ⟨fun _ _ _ _ h => fill_spec h, fun _ _ _ _ h => fillBlocks_spec h⟩

theorem C2_witness :
    fillTransitiveSplitterCallers Mc2 SAAc2 10 1 ∅ = some (true, Sc2) ∧
      ((2 : FName) ∈ Sc2 ↔ (VisitsFrom Mc2 SAAc2 1 2 ∧ Reaches Mc2 SAAc2 2)) :=
  ⟨rfl, ((@C2_splitterset_characterisation Mc2 SAAc2).1 10 1 true Sc2 rfl).1 2⟩

theorem blockTargets_selectBlocks_set {blocks : List BasicBlock} {idxs : List Nat}
    {i : Nat} {b' : BasicBlock} {t : FName}
    (h : t ∈ blockTargets (selectBlocks (blocks.set i b') idxs)) :
    t ∈ blockTargets (selectBlocks blocks idxs) ∨ t ∈ instrListTargets b' := by
  rw [mem_blockTargets_iff] at h
  obtain ⟨b, hb, hcall⟩ := h
  obtain ⟨j, hj, hget⟩ := mem_selectBlocks.mp hb
  by_cases hij : i = j
  · subst hij
    rw [List.get?_set_eq] at hget
    cases hgi : blocks.get? i with
    | none =>
      rw [hgi] at hget
      have hcon : (none : Option BasicBlock) = some b := hget
      exact absurd hcon (by simp)
    | some x =>
      rw [hgi] at hget
      have hbb : some b' = some b := hget
      have hb2 : b = b' := (Option.some.inj hbb).symm
      right
      rw [mem_instrListTargets]
      exact hb2 ▸ hcall
  · rw [List.get?_set_ne b' blocks hij] at hget
    left
    rw [mem_blockTargets_iff]
    exact ⟨b, mem_selectBlocks.mpr ⟨j, hj, hget⟩, hcall⟩

theorem inlineCallsInScope_length {M : IRModule} {SAA : SplitterAnnotationInfo}
    {S : Finset FName} {idxs : List Nat} {fuel : Nat} {blocks bs : List BasicBlock}
    {ch0 ch : Bool}
    (hrun : inlineCallsInScope M SAA S idxs fuel blocks ch0 = some (bs, ch)) :
    bs.length = blocks.length :=
  inlineCallsInScope_inv (P := fun bl => bl.length = blocks.length)
    (fun b b' hstep hP => (stepBlocks_length hstep).trans hP)
    fuel blocks ch0 bs ch hrun rfl

theorem scope_inv_step {M : IRModule} {SAA : SplitterAnnotationInfo} {S1 : Finset FName}
    {roots : List FName} {idxs : List Nat}
    (O1 : FillOutcome M SAA roots ∅ S1 true)
    {bl bl' : List BasicBlock}
    (hstep : inlineCallsStepBlocks M SAA S1 idxs bl = some bl')
    (hP : ∀ t ∈ blockTargets (selectBlocks bl idxs), ScopeInv M SAA roots t) :
    ∀ t ∈ blockTargets (selectBlocks bl' idxs), ScopeInv M SAA roots t := by
  intro t ht
  obtain ⟨i, hi, b, b', hgi, hscan, hset⟩ := stepBlocks_some_inv idxs bl bl' hstep
  rw [hset] at ht
  rcases blockTargets_selectBlocks_set ht with h0 | h0
  · exact hP t h0
  · rcases inlineCallsStep_targets b b' hscan t h0 with h1 | h1 | ⟨g, hgS, hgsp, h1⟩
    · refine hP t ?_
      rw [mem_blockTargets_iff]
      exact ⟨b, mem_selectBlocks.mpr ⟨i, hi, hgi⟩, mem_instrListTargets.mp h1⟩
    · exact Or.inl h1
    · rcases O1.delta g hgS with hg0 | ⟨hgr, r, hr, hgv⟩
      · simp at hg0
      · exact Or.inr ⟨mem_moduleTargets_of_funcTargets h1,
          r, hr, VisitsFrom.step g t hgv hgsp h1⟩

/-- After a first scope-level run over a splitter-caller set computed for
the scope's roots, any second scan over any module `M2` agreeing with `M`
on reachability (away from a never-called name) and any sound set `S2` is
already at its fixed point. -/
theorem scope_idempotence_core {M : IRModule} {SAA : SplitterAnnotationInfo}
    {S1 : Finset FName} {roots : List FName} {idxs : List Nat} {n : FName} {fuel : Nat}
    {blocks bs : List BasicBlock} {ch : Bool}
    (hnc : n ∉ moduleTargets M)
    (O1 : FillOutcome M SAA roots ∅ S1 true)
    (hinit : ∀ t ∈ blockTargets (selectBlocks blocks idxs), ScopeInv M SAA roots t)
    (hrun : inlineCallsInScope M SAA S1 idxs fuel blocks false = some (bs, ch)) :
    ∀ (M2 : IRModule) (S2 : Finset FName),
      (∀ g ∈ S2, Reaches M2 SAA g) →
      (∀ g, g ≠ n → Reaches M2 SAA g → Reaches M SAA g) →
      inlineCallsStepBlocks M2 SAA S2 idxs bs = none := by
  intro M2 S2 hS2sound hS2transfer
  have hInv : ∀ t ∈ blockTargets (selectBlocks bs idxs), ScopeInv M SAA roots t :=
    inlineCallsInScope_inv
      (P := fun bl => ∀ t ∈ blockTargets (selectBlocks bl idxs), ScopeInv M SAA roots t)
      (fun b b' hstep hP => scope_inv_step O1 hstep hP)
      fuel blocks false bs ch hrun hinit
  have hfix := inlineCallsInScope_fix fuel blocks false bs ch hrun
  rw [stepBlocks_none_iff]
  intro i hi b hb
  rw [inlineCallsStep_none_iff]
  intro instr hinstr g hgeq
  have hNA1 := (inlineCallsStep_none_iff b).mp
    ((stepBlocks_none_iff idxs bs).mp hfix i hi b hb) instr hinstr g hgeq
  have hgscope : g ∈ blockTargets (selectBlocks bs idxs) :=
    mem_blockTargets_iff.mpr ⟨b, mem_selectBlocks.mpr ⟨i, hi, hb⟩, hgeq ▸ hinstr⟩
  refine ⟨?_, hNA1.2⟩
  rintro ⟨hgS2, hgsp⟩
  exfalso
  rcases hInv g hgscope with hbar | ⟨hgmod, r, hr, hgv⟩
  · have hbspl : SAA.isSplitterFunc BarrierIntrinsicName = true := by
      simp [SplitterAnnotationInfo.isSplitterFunc, SAA.barrier_is_splitter]
    rw [hbar, hbspl] at hgsp
    exact absurd hgsp (by simp)
  · have hgn : g ≠ n := fun he => hnc (he ▸ hgmod)
    have hgrM : Reaches M SAA g := hS2transfer g hgn (hS2sound g hgS2)
    have hgS1 : g ∈ S1 := visits_closed_mem O1.closed (O1.complete_roots r hr) hgv hgrM
    have hdef : hasDef M g = true := funcTargets_hasDef ((O1.sound g hgS1).2 hgsp)
    have hnd := hNA1.1 ⟨hgS1, hgsp⟩
    rw [hdef] at hnd
    exact absurd hnd (by simp)

theorem runOnFunction_kernel_none_decomp {M : IRModule} {SAA : SplitterAnnotationInfo}
    {fuel : Nat} {F : Func} {r : Func × Bool}
    (hk : SAA.isKernelFunc F.name = true)
    (h : runOnFunction M SAA fuel none F = some r) :
    ∃ fnd S, fillTransitiveSplitterCallers M SAA fuel F.name ∅ = some (fnd, S) ∧
      ((fnd = false ∧ r = (F, false)) ∨
       (fnd = true ∧ ∃ bs ch,
         inlineCallsInScope M SAA S (List.range F.blocks.length) fuel F.blocks false =
           some (bs, ch) ∧ r = ({ F with blocks := bs }, ch))) := by
  unfold runOnFunction at h
  rw [if_neg (by simp [hk])] at h
  simp only [inlineSplitter] at h
  unfold inlineSplitterFn at h
  cases hfill : fillTransitiveSplitterCallers M SAA fuel F.name ∅ with
  | none => rw [hfill] at h; exact absurd h (by simp)
  | some p =>
    obtain ⟨fnd, S⟩ := p
    refine ⟨fnd, S, rfl, ?_⟩
    cases fnd with
    | false =>
      simp only [hfill, Option.some.injEq] at h
      exact Or.inl ⟨rfl, h.symm⟩
    | true =>
      cases hrun : inlineCallsInScope M SAA S (List.range F.blocks.length) fuel
          F.blocks false with
      | none => simp only [hfill, hrun] at h; exact absurd h (by simp)
      | some p2 =>
        obtain ⟨bs, ch⟩ := p2
        simp only [hfill, hrun, Option.some.injEq] at h
        exact Or.inr ⟨rfl, bs, ch, rfl, h.symm⟩

theorem runOnFunction_kernel_some_decomp {M : IRModule} {SAA : SplitterAnnotationInfo}
    {fuel : Nat} {F : Func} {L : WorkItemLoop} {r : Func × Bool}
    (hk : SAA.isKernelFunc F.name = true)
    (h : runOnFunction M SAA fuel (some L) F = some r) :
    (L.isWorkItem = false ∧ r = (F, false)) ∨
    (L.isWorkItem = true ∧ ∃ fnd S,
      fillTransitiveSplitterCallersBlocks M SAA fuel
        (selectBlocks F.blocks L.blockIdxs) ∅ = some (fnd, S) ∧
      ((fnd = false ∧ r = (F, false)) ∨
       (fnd = true ∧ ∃ bs ch,
         inlineCallsInScope M SAA S L.blockIdxs fuel F.blocks false = some (bs, ch) ∧
         r = ({ F with blocks := bs }, ch)))) := by
  unfold runOnFunction at h
  rw [if_neg (by simp [hk])] at h
  simp only [inlineSplitter] at h
  cases hL : inlineSplitterLoop M SAA fuel L F.blocks with
  | none => rw [hL] at h; exact absurd h (by simp)
  | some p =>
    obtain ⟨bs0, ch0⟩ := p
    rw [hL] at h
    simp only [Option.some.injEq] at h
    unfold inlineSplitterLoop at hL
    by_cases hwi : L.isWorkItem = false
    · rw [if_pos hwi] at hL
      simp only [Option.some.injEq, Prod.mk.injEq] at hL
      left
      refine ⟨hwi, ?_⟩
      rw [← h, ← hL.1, ← hL.2]
    · rw [if_neg hwi] at hL
      rw [Bool.not_eq_false] at hwi
      right
      refine ⟨hwi, ?_⟩
      cases hfill : fillTransitiveSplitterCallersBlocks M SAA fuel
          (selectBlocks F.blocks L.blockIdxs) ∅ with
      | none => rw [hfill] at hL; exact absurd hL (by simp)
      | some p2 =>
        obtain ⟨fnd, S⟩ := p2
        refine ⟨fnd, S, rfl, ?_⟩
        cases fnd with
        | false =>
          simp only [hfill, Option.some.injEq, Prod.mk.injEq] at hL
          left
          refine ⟨rfl, ?_⟩
          rw [← h, ← hL.1, ← hL.2]
        | true =>
          simp only [hfill] at hL
          exact Or.inr ⟨rfl, bs0, ch0, hL, h.symm⟩

/-- C8: idempotence.  Running the pass a second time on the output of a
first run (with the module updated with the transformed body, as the
in-place mutation does) reports "no change" and leaves the function as the
first run produced it.  The hypotheses `findFunc M F.name = some F` and
`F.name ∉ moduleTargets M` embed, respectively, that `F` is the module's
function being transformed and the documented non-recursion precondition
(nobody calls the kernel entry). -/
theorem C8_idempotent {M : IRModule} {SAA : SplitterAnnotationInfo} {fuel1 fuel2 : Nat}
    {wiLoop : Option WorkItemLoop} {F F1 F2 : Func} {ch1 ch2 : Bool}
    (hf : findFunc M F.name = some F)
    (hnc : F.name ∉ moduleTargets M)
    (h1 : runOnFunction M SAA fuel1 wiLoop F = some (F1, ch1))
    (h2 : runOnFunction (updateFunc M F.name F1.blocks) SAA fuel2 wiLoop F1 =
      some (F2, ch2)) :
    F2 = F1 ∧ ch2 = false := by
  by_cases hk : SAA.isKernelFunc F.name = true
  case neg =>
    rw [Bool.not_eq_true] at hk
    unfold runOnFunction at h1
    rw [if_pos hk] at h1
    simp only [Option.some.injEq, Prod.mk.injEq] at h1
    unfold runOnFunction at h2
    rw [if_pos (by rw [← h1.1]; exact hk)] at h2
    simp only [Option.some.injEq, Prod.mk.injEq] at h2
    exact ⟨h2.1.symm, h2.2.symm⟩
  case pos =>
    cases wiLoop with
    | some L =>
      rcases runOnFunction_kernel_some_decomp hk h1 with
        ⟨hwi, hr1⟩ | ⟨hwi, fnd1, S1, hfill1, hcase1⟩
      · -- the identified loop is not a work-item loop: both runs do nothing
        rw [Prod.mk.injEq] at hr1
        obtain ⟨hF1, _⟩ := hr1
        subst hF1
        rcases runOnFunction_kernel_some_decomp hk h2 with ⟨_, hr2⟩ | ⟨hwi2, _⟩
        · rw [Prod.mk.injEq] at hr2
          exact ⟨hr2.1, hr2.2⟩
        · rw [hwi2] at hwi
          exact absurd hwi (by simp)
      · rcases hcase1 with ⟨hfnd1, hr1⟩ | ⟨hfnd1, bs, ch, hrun1, hr1⟩
        · -- no splitter transitively reachable from the loop: first run did
          -- nothing, and the second finds none either
          subst hfnd1
          rw [Prod.mk.injEq] at hr1
          obtain ⟨hF1, _⟩ := hr1
          subst hF1
          rcases runOnFunction_kernel_some_decomp hk h2 with
            ⟨hwi2, _⟩ | ⟨_, fnd2, S2, hfill2, hcase2⟩
          · rw [hwi] at hwi2
            exact absurd hwi2 (by simp)
          · rcases hcase2 with ⟨hfnd2, hr2⟩ | ⟨hfnd2, bs2, ch2', hrun2, hr2⟩
            · rw [Prod.mk.injEq] at hr2
              exact ⟨hr2.1, hr2.2⟩
            · exfalso
              subst hfnd2
              have O1 := fillFold_fill_outcome hfill1 (soundSet_empty M SAA)
                (closedSet_empty M SAA)
              have O2 := fillFold_fill_outcome hfill2
                (soundSet_empty (updateFunc M F1.name F1.blocks) SAA)
                (closedSet_empty (updateFunc M F1.name F1.blocks) SAA)
              obtain ⟨t, ht, htr⟩ := O2.found_iff.mp rfl
              have htM : t ∈ blockTargets F1.blocks :=
                blockTargets_selectBlocks_subset ht
              have htM' : t ∈ funcTargets M F1.name := by
                rw [funcTargets_of_findFunc]
                · exact htM
                · exact hf
              have htn : t ≠ F1.name :=
                fun he => hnc (he ▸ mem_moduleTargets_of_funcTargets htM')
              have htrM : Reaches M SAA t := (reaches_update_iff hnc htn).mp htr
              have : (false : Bool) = true := O1.found_iff.mpr ⟨t, ht, htrM⟩
              exact absurd this (by simp)
        · -- the loop scope was transformed to its fixed point
          subst hfnd1
          rw [Prod.mk.injEq] at hr1
          obtain ⟨hF1, _⟩ := hr1
          subst hF1
          have O1 := fillFold_fill_outcome hfill1 (soundSet_empty M SAA)
            (closedSet_empty M SAA)
          have hinit : ∀ t ∈ blockTargets (selectBlocks F.blocks L.blockIdxs),
              ScopeInv M SAA (blockTargets (selectBlocks F.blocks L.blockIdxs)) t := by
            intro t ht
            have htM : t ∈ funcTargets M F.name := by
              rw [funcTargets_of_findFunc hf]
              exact blockTargets_selectBlocks_subset ht
            exact Or.inr ⟨mem_moduleTargets_of_funcTargets htM, t, ht, VisitsFrom.base⟩
          have hcore := scope_idempotence_core hnc O1 hinit hrun1
          rcases runOnFunction_kernel_some_decomp
            (show SAA.isKernelFunc ({ F with blocks := bs } : Func).name = true from hk) h2 with
            ⟨hwi2, _⟩ | ⟨_, fnd2, S2, hfill2, hcase2⟩
          · rw [hwi] at hwi2
            exact absurd hwi2 (by simp)
          · rcases hcase2 with ⟨hfnd2, hr2⟩ | ⟨hfnd2, bs2, ch2', hrun2, hr2⟩
            · rw [Prod.mk.injEq] at hr2
              exact ⟨hr2.1, hr2.2⟩
            · subst hfnd2
              have O2 := fillFold_fill_outcome hfill2
                (soundSet_empty (updateFunc M F.name ({ F with blocks := bs } : Func).blocks) SAA)
                (closedSet_empty (updateFunc M F.name ({ F with blocks := bs } : Func).blocks) SAA)
              have hstep2 : inlineCallsStepBlocks
                  (updateFunc M F.name ({ F with blocks := bs } : Func).blocks) SAA S2
                  L.blockIdxs ({ F with blocks := bs } : Func).blocks = none :=
                hcore (updateFunc M F.name ({ F with blocks := bs } : Func).blocks) S2
                  (fun g hg => (O2.sound g hg).1)
                  (fun g hgn hr => (reaches_update_iff hnc hgn).mp hr)
              obtain ⟨hbs2, hch2'⟩ := inlineCallsInScope_of_fix hstep2 hrun2
              rw [Prod.mk.injEq] at hr2
              refine ⟨?_, ?_⟩
              · rw [hr2.1, hbs2]
              · rw [hr2.2, hch2']
    | none =>
      rcases runOnFunction_kernel_none_decomp hk h1 with ⟨fnd1, S1, hfill1, hcase1⟩
      rcases hcase1 with ⟨hfnd1, hr1⟩ | ⟨hfnd1, bs, ch, hrun1, hr1⟩
      · -- no splitter transitively reachable: first run did nothing
        subst hfnd1
        rw [Prod.mk.injEq] at hr1
        obtain ⟨hF1, _⟩ := hr1
        subst hF1
        rcases runOnFunction_kernel_none_decomp hk h2 with ⟨fnd2, S2, hfill2, hcase2⟩
        rcases hcase2 with ⟨hfnd2, hr2⟩ | ⟨hfnd2, bs2, ch2', hrun2, hr2⟩
        · rw [Prod.mk.injEq] at hr2
          exact ⟨hr2.1, hr2.2⟩
        · exfalso
          subst hfnd2
          have hreach2 : Reaches (updateFunc M F1.name F1.blocks) SAA F1.name :=
            (fill_spec hfill2).2.mp rfl
          have hnr1 : ¬ Reaches M SAA F1.name := by
            intro hr
            have : (false : Bool) = true := (fill_spec hfill1).2.mpr hr
            exact absurd this (by simp)
          apply hnr1
          rcases reaches_iff.mp hreach2 with hs | ⟨t, ht, htr⟩
          · exact Reaches.splitter _ hs
          · have hts : funcTargets (updateFunc M F1.name F1.blocks) F1.name =
                blockTargets F1.blocks := by
              unfold funcTargets
              rw [findFunc_update_self hf]
            rw [hts] at ht
            have htM : t ∈ funcTargets M F1.name := by
              rw [funcTargets_of_findFunc hf]
              exact ht
            have htn : t ≠ F1.name :=
              fun he => hnc (he ▸ mem_moduleTargets_of_funcTargets htM)
            exact Reaches.step F1.name t htM ((reaches_update_iff hnc htn).mp htr)
      · -- whole-function scope transformed to its fixed point
        subst hfnd1
        rw [Prod.mk.injEq] at hr1
        obtain ⟨hF1, _⟩ := hr1
        subst hF1
        have O1 := fill_master fuel1 M SAA F.name ∅ true S1 hfill1 (soundSet_empty M SAA)
          (closedSet_empty M SAA)
        have hlen : bs.length = F.blocks.length := inlineCallsInScope_length hrun1
        rcases runOnFunction_kernel_none_decomp
          (show SAA.isKernelFunc ({ F with blocks := bs } : Func).name = true from hk) h2 with
          ⟨fnd2, S2, hfill2, hcase2⟩
        rcases hcase2 with ⟨hfnd2, hr2⟩ | ⟨hfnd2, bs2, ch2', hrun2, hr2⟩
        · rw [Prod.mk.injEq] at hr2
          exact ⟨hr2.1, hr2.2⟩
        · subst hfnd2
          have hspec2 := fill_spec hfill2
          have hidx : List.range ({ F with blocks := bs } : Func).blocks.length =
              List.range F.blocks.length := by
            show List.range bs.length = List.range F.blocks.length
            rw [hlen]
          by_cases hsp : SAA.isSplitterFunc F.name = true
          · -- degenerate: the kernel itself is annotated as a splitter
            have hvis2 : ∀ f,
                VisitsFrom (updateFunc M F.name ({ F with blocks := bs } : Func).blocks) SAA
                  ({ F with blocks := bs } : Func).name f →
                f = ({ F with blocks := bs } : Func).name := by
              intro f hv
              induction hv with
              | base => rfl
              | step f0 g hv0 hsp0 hg0 ih =>
                rw [ih] at hsp0
                have hsp0' : SAA.isSplitterFunc F.name = false := hsp0
                rw [hsp] at hsp0'
                exact absurd hsp0' (by simp)
            have hfix1 := inlineCallsInScope_fix fuel1 F.blocks false bs ch hrun1
            have hstep2 : inlineCallsStepBlocks
                (updateFunc M F.name ({ F with blocks := bs } : Func).blocks) SAA S2
                (List.range ({ F with blocks := bs } : Func).blocks.length)
                ({ F with blocks := bs } : Func).blocks = none := by
              rw [hidx]
              rw [stepBlocks_none_iff]
              intro i hi b hb
              rw [inlineCallsStep_none_iff]
              intro instr hinstr g hgeq
              have hb' : bs.get? i = some b := hb
              have hNA1 := (inlineCallsStep_none_iff b).mp
                ((stepBlocks_none_iff (List.range F.blocks.length) bs).mp hfix1 i hi b hb')
                instr hinstr g hgeq
              refine ⟨?_, hNA1.2⟩
              rintro ⟨hgS2, hgsp⟩
              exfalso
              have hgF : g = ({ F with blocks := bs } : Func).name :=
                hvis2 g ((hspec2.1 g).mp hgS2).1
              have hgsp' : SAA.isSplitterFunc F.name = false := hgF ▸ hgsp
              rw [hsp] at hgsp'
              exact absurd hgsp' (by simp)
            obtain ⟨hbs2, hch2'⟩ := inlineCallsInScope_of_fix hstep2 hrun2
            rw [Prod.mk.injEq] at hr2
            refine ⟨?_, ?_⟩
            · rw [hr2.1, hbs2]
            · rw [hr2.2, hch2']
          · rw [Bool.not_eq_true] at hsp
            have hinit : ∀ t ∈ blockTargets
                (selectBlocks F.blocks (List.range F.blocks.length)),
                ScopeInv M SAA [F.name] t := by
              rw [selectBlocks_range]
              intro t ht
              have ht' : t ∈ funcTargets M F.name := by
                rw [funcTargets_of_findFunc hf]
                exact ht
              exact Or.inr ⟨mem_moduleTargets_of_funcTargets ht', F.name,
                List.mem_singleton_self _,
                VisitsFrom.step F.name t VisitsFrom.base hsp ht'⟩
            have hcore := scope_idempotence_core hnc O1 hinit hrun1
            have O2 := fill_master fuel2
              (updateFunc M F.name ({ F with blocks := bs } : Func).blocks) SAA
              ({ F with blocks := bs } : Func).name ∅ true S2 hfill2
              (soundSet_empty _ SAA) (closedSet_empty _ SAA)
            have hstep2 : inlineCallsStepBlocks
                (updateFunc M F.name ({ F with blocks := bs } : Func).blocks) SAA S2
                (List.range ({ F with blocks := bs } : Func).blocks.length)
                ({ F with blocks := bs } : Func).blocks = none := by
              rw [hidx]
              exact hcore (updateFunc M F.name ({ F with blocks := bs } : Func).blocks) S2
                (fun g hg => (O2.sound g hg).1)
                (fun g hgn hr => (reaches_update_iff hnc hgn).mp hr)
            obtain ⟨hbs2, hch2'⟩ := inlineCallsInScope_of_fix hstep2 hrun2
            rw [Prod.mk.injEq] at hr2
            refine ⟨?_, ?_⟩
            · rw [hr2.1, hbs2]
            · rw [hr2.2, hch2']

theorem C8_witness :
    runOnFunction Mw8 SAAw8 10 none Fw8 = some (Fw8', true) ∧
    runOnFunction (updateFunc Mw8 Fw8.name Fw8'.blocks) SAAw8 12 none Fw8' =
      some (Fw8', false) ∧
    (Fw8' = Fw8' ∧ false = false) :=
  ⟨by decide, by decide,
    @C8_idempotent Mw8 SAAw8 10 12 none Fw8 Fw8' Fw8' true false
      (by decide) (by decide) (by decide) (by decide)⟩

end LoopSplitter
